import Mathlib

/-!
# Verification of the GitLens git-data retrieval and caching subsystem

Shallow embedding of `src/git/gitService.ts` (class `GitService`) together
with the small pieces of state it manipulates (per-document cache state,
the service-level branches/tags/tracked/user caches, log pagination
closures, blame range slicing and the search-operator parser).

Conventions used throughout:
* JavaScript `Map` objects are embedded as association lists
  `List (String × β)` where `set` overwrites the value in place (keeping
  the original insertion position) and appends otherwise, matching the
  insertion-order semantics of `Map`.
* Promises are embedded as identifiers (`PromiseId := Nat`); the module
  level constant `emptyPromise` of `gitService.ts` is promise id `0` and
  freshly created promises take ids from a counter that starts at `1`.
* A call into the external git subprocess is counted by a `spawns`
  counter; an async core helper that will eventually spawn git is charged
  at invocation time (each core invocation performs exactly one spawn,
  for blame/log only when the file is tracked).
-/

namespace GitLens

/-- JS `Map.get`: first (and only) binding of a key in an association list. -/
def lookupEntry {β : Type} (m : List (String × β)) (k : String) : Option β :=
  match m with
  | [] => none
  | (k', v) :: rest => if k' = k then some v else lookupEntry rest k

/-- JS `Map.set`: overwrite the value in place if the key is present
(keeping its insertion position), otherwise append the binding. -/
def setEntry {β : Type} (m : List (String × β)) (k : String) (v : β) : List (String × β) :=
  match m with
  | [] => [(k, v)]
  | (k', v') :: rest => if k' = k then (k, v) :: rest else (k', v') :: setEntry rest k v

/-- JS `Map.delete`: remove the binding of a key.  Keys are unique in a
`Map`, so on the association lists that represent one, removing every
binding of the key is the same operation. -/
def eraseEntry {β : Type} (m : List (String × β)) (k : String) : List (String × β) :=
  m.filter (fun kv => kv.1 ≠ k)

theorem lookupEntry_eraseEntry_self {β : Type} (m : List (String × β)) (k : String) :
    lookupEntry (eraseEntry m k) k = none := by
  induction m with
  | nil => rfl
  | cons hd tl ih =>
    by_cases h : hd.1 = k
    · simpa [eraseEntry, h, List.filter] using ih
    · simpa [eraseEntry, h, List.filter, lookupEntry] using ih

/-- JS `new Map([...a, ...b])`: start from `a` and `Map.set` every binding of `b`
in order.  Later bindings for an existing key overwrite the value but keep
the original insertion position. -/
def jsMapMerge {β : Type} (a b : List (String × β)) : List (String × β) :=
  b.foldl (fun m kv => setEntry m kv.1 kv.2) a

theorem lookupEntry_setEntry_self {β : Type} (m : List (String × β)) (k : String) (v : β) :
    lookupEntry (setEntry m k v) k = some v := by
  induction m with
  | nil => simp [setEntry, lookupEntry]
  | cons hd tl ih =>
    by_cases h : hd.1 = k
    · simp [setEntry, lookupEntry, h]
    · simp [setEntry, lookupEntry, h, ih]

theorem lookupEntry_setEntry_ne {β : Type} (m : List (String × β)) (k k' : String) (v : β)
    (h : k ≠ k') : lookupEntry (setEntry m k v) k' = lookupEntry m k' := by
  induction m with
  | nil => simp [setEntry, lookupEntry, h]
  | cons hd tl ih =>
    by_cases h' : hd.1 = k
    · simp [setEntry, lookupEntry, h', h]
    · simp [setEntry, lookupEntry, h', ih]

/-- Keys of an association list. -/
def keysOf {β : Type} (m : List (String × β)) : List String := m.map (·.1)

@[simp] theorem keysOf_nil {β : Type} : keysOf ([] : List (String × β)) = [] := rfl

@[simp] theorem keysOf_cons {β : Type} (hd : String × β) (tl : List (String × β)) :
    keysOf (hd :: tl) = hd.1 :: keysOf tl := rfl

@[simp] theorem keysOf_append {β : Type} (a b : List (String × β)) :
    keysOf (a ++ b) = keysOf a ++ keysOf b := by
  simp [keysOf]

theorem lookupEntry_eq_none_of_not_mem_keys {β : Type} (m : List (String × β)) (k : String)
    (h : k ∉ keysOf m) : lookupEntry m k = none := by
  induction m with
  | nil => rfl
  | cons hd tl ih =>
    have h1 : ¬hd.1 = k := fun hh => h (by rw [keysOf_cons, hh]; exact List.mem_cons_self _ _)
    have h2 : k ∉ keysOf tl := fun hh => h (by rw [keysOf_cons]; exact List.mem_cons_of_mem _ hh)
    simpa [lookupEntry, h1] using ih h2

theorem setEntry_eq_append_of_not_mem {β : Type} (a : List (String × β)) (k : String) (v : β)
    (h : k ∉ keysOf a) : setEntry a k v = a ++ [(k, v)] := by
  induction a with
  | nil => rfl
  | cons x xs ih =>
    have h1 : ¬x.1 = k := fun hh => h (by rw [keysOf_cons, hh]; exact List.mem_cons_self _ _)
    have h2 : k ∉ keysOf xs := fun hh => h (by rw [keysOf_cons]; exact List.mem_cons_of_mem _ hh)
    simp [setEntry, h1, ih h2]

/-- If none of the keys of `b` occurs in `a`, and the keys of `b` are
pairwise distinct, the JS map merge is a plain append. -/
theorem jsMapMerge_eq_append {β : Type} (a b : List (String × β))
    (hdisj : ∀ k, k ∈ keysOf b → k ∉ keysOf a) (hnd : (keysOf b).Nodup) :
    jsMapMerge a b = a ++ b := by
  induction b generalizing a with
  | nil => simp [jsMapMerge]
  | cons hd tl ih =>
    have hset : setEntry a hd.1 hd.2 = a ++ [hd] :=
      setEntry_eq_append_of_not_mem a hd.1 hd.2 (hdisj hd.1 (by simp))
    have hstep : jsMapMerge a (hd :: tl) = jsMapMerge (a ++ [hd]) tl := by
      simp [jsMapMerge, hset]
    rw [keysOf_cons] at hnd
    have hnd' := (List.nodup_cons.mp hnd)
    rw [hstep, ih (a ++ [hd])]
    · simp
    · intro k hk
      rw [keysOf_append]
      intro hcon
      rcases List.mem_append.mp hcon with hca | hcb
      · exact hdisj k (by simp [hk]) hca
      · have : k = hd.1 := by simpa using hcb
        exact hnd'.1 (this ▸ hk)
    · exact hnd'.2

/-! ## Domain value objects shared by several operations -/

/-- A parsed branch (only the fields the embedded operations inspect). -/
structure GitBranch where
  name : String
  remote : Bool := false
  deriving DecidableEq, Repr

/-- A parsed tag. -/
structure GitTag where
  name : String
  deriving DecidableEq, Repr

/-- The `user.name`/`user.email` pair cached per repository. -/
structure GitUser where
  name : Option String := none
  email : Option String := none
  deriving DecidableEq, Repr

/-! ## C9 — repository change events and service-level cache invalidation

Embedding of `GitService.onAnyRepositoryChanged` (gitService.ts:247-266).
The `Repository`/`RepositoryChangeEvent` classes live in
`src/git/models/repository.ts`, which is not part of the provided sources;
the event is modelled from the spec as the list of change kinds it reports,
and `changed e c solely` is true when `c` is among them (`solely`: when it
is the only one). -/

/-- Modelled from the spec: the kinds of change a repository reports
(`src/git/models/repository.ts` is not among the provided sources). -/
inductive RepositoryChange where
  | Closed
  | Config
  | Heads
  | Index
  | Remotes
  | Repository
  | Stashes
  | Tags
  deriving DecidableEq, Repr

/-- Modelled from the spec: a repository change event carries the set of
changes being reported. -/
structure RepositoryChangeEvent where
  changes : List RepositoryChange
  deriving DecidableEq, Repr

/-- Modelled from the spec: `e.changed(c)` tests membership, and
`e.changed(c, true)` ("solely") tests that `c` is the only reported
change. -/
def RepositoryChangeEvent.changedIn (e : RepositoryChangeEvent) (c : RepositoryChange)
    (solely : Bool := false) : Bool :=
  if solely then decide (e.changes = [c]) else e.changes.contains c

/-- The four service-level caches of `GitService`
(`_branchesCache`, `_tagsCache`, `_trackedCache`, `_userMapCache`). -/
structure ServiceCaches where
  branchesCache : List (String × List GitBranch)
  tagsCache : List (String × List GitTag)
  trackedCache : List (String × Bool)
  userMapCache : List (String × Option GitUser)
  deriving DecidableEq, Repr

/-- Embeds `GitService.onAnyRepositoryChanged` (gitService.ts:247-266) restricted
to its cache effects.  The `Closed` branch of the source only fires a
repositories-changed notification and touches no cache, so it does not
appear here. -/
def onAnyRepositoryChanged (repoPath : String) (e : RepositoryChangeEvent)
    (s : ServiceCaches) : ServiceCaches :=
  if e.changedIn .Stashes true then s
  else
    let s1 : ServiceCaches :=
      { s with
        branchesCache := eraseEntry s.branchesCache repoPath
        tagsCache := eraseEntry s.tagsCache repoPath
        trackedCache := [] }
    if e.changedIn .Config then
      { s1 with userMapCache := eraseEntry s1.userMapCache repoPath }
    else s1

/-- C9: a stash-only repository change event leaves every service-level
cache (branches, tags, tracked files, user map) untouched, while any
other reported change event removes the repository's entries from the
branches and tags caches. -/
theorem c9_stash_only_change_skips_cache_invalidation
    (repoPath : String) (e : RepositoryChangeEvent) (s : ServiceCaches) :
    (e.changes = [RepositoryChange.Stashes] → onAnyRepositoryChanged repoPath e s = s) ∧
    (e.changes ≠ [RepositoryChange.Stashes] →
      lookupEntry (onAnyRepositoryChanged repoPath e s).branchesCache repoPath = none ∧
      lookupEntry (onAnyRepositoryChanged repoPath e s).tagsCache repoPath = none) := by
  constructor
  · intro h
    simp [onAnyRepositoryChanged, RepositoryChangeEvent.changedIn, h]
  · intro h
    have hne : e.changedIn .Stashes true = false := by
      simp [RepositoryChangeEvent.changedIn, h]
    by_cases hc : e.changedIn .Config = true
    · simp [onAnyRepositoryChanged, hne, hc, lookupEntry_eraseEntry_self]
    · simp [onAnyRepositoryChanged, hne, hc, lookupEntry_eraseEntry_self]

/-- Witness for C9: a concrete stash-only event is a no-op on a nonempty
cache, and a concrete heads-change event evicts the repository's branch
and tag entries. -/
theorem c9_stash_only_change_skips_cache_invalidation_witness :
    (onAnyRepositoryChanged "/repo" ⟨[.Stashes]⟩
      ⟨[("/repo", [⟨"master", false⟩])], [("/repo", [⟨"v1"⟩])], [("/repo/f", true)], []⟩ =
      ⟨[("/repo", [⟨"master", false⟩])], [("/repo", [⟨"v1"⟩])], [("/repo/f", true)], []⟩) ∧
    (lookupEntry (onAnyRepositoryChanged "/repo" ⟨[.Heads]⟩
      ⟨[("/repo", [⟨"master", false⟩])], [("/repo", [⟨"v1"⟩])], [("/repo/f", true)], []⟩).branchesCache
      "/repo" = none) := by
  refine ⟨?_, ?_⟩
  · exact (c9_stash_only_change_skips_cache_invalidation "/repo" ⟨[.Stashes]⟩ _).1 rfl
  · exact ((c9_stash_only_change_skips_cache_invalidation "/repo" ⟨[.Heads]⟩ _).2 (by decide)).1

/-! ## C7 — search operator parsing

Embedding of `GitService.parseSearchOperations` and
`GitService.parseSearchMessageOperations` (gitService.ts:3189-3267)
together with the three regular expressions they execute
(gitService.ts:106-108).  The regexes are transcribed operationally:

* `searchOperationRegex`
  `/((?:=|message|@|author|#|commit|\?|file|~|change):)\s?(?=(.*?)\s?(?:(?:=:|message:|@:|author:|#:|commit:|\?:|file:|~:|change:)|$))/g`
  scans for an operator token, optionally consumes one whitespace
  character after it, and captures lazily (without consuming) the text up
  to the next operator token or end of input, allowing one whitespace
  character right before that boundary.
* `searchMessageOperationRegex` is the same lookahead with no consumed
  part, executed once; its group 1 is the text before the first operator.
* `searchMessageValuesRegex` `/(".+"|[^\b\s]+)/g` collects quoted spans
  (greedy, so up to the last quote) or maximal runs of
  non-whitespace/non-backspace characters. -/

/-- The ten operator tokens recognised by the search regexes, in the
alternation order of the source patterns. -/
def searchOperatorTokens : List (List Char) :=
  ["=:", "message:", "@:", "author:", "#:", "commit:", "?:", "file:", "~:", "change:"].map
    String.toList

/-- The operator token (if any) matching at the head of the input; at most
one alternative of the source regex can match at a given position since no
token is a prefix of another. -/
def searchOpAt (cs : List Char) : Option (List Char) :=
  searchOperatorTokens.find? (fun t => t.isPrefixOf cs)

/-- The lazy lookahead capture `(?=(.*?)\s?(?:op|$))` evaluated at the head
of `cs`: the shortest newline-free prefix that is followed (after at most
one whitespace character) by an operator token or the end of input;
`none` when the lookahead cannot succeed (a newline blocks `.`). -/
def lookaheadValue : List Char → Option (List Char)
  | [] => some []
  | c :: rest =>
    if (searchOpAt (c :: rest)).isSome then some []
    else if c.isWhitespace && (rest.isEmpty || (searchOpAt rest).isSome) then some []
    else if c = '\n' then none
    else (lookaheadValue rest).map (c :: ·)

/-- One `exec` of `searchMessageOperationRegex`: the first position whose
lookahead succeeds yields group 1. -/
def firstLookaheadValue : List Char → Option (List Char)
  | [] => some []
  | c :: rest =>
    match lookaheadValue (c :: rest) with
    | some v => some v
    | none => firstLookaheadValue rest

/-- The `(op, value)` pairs produced by repeatedly `exec`ing
`searchOperationRegex` (the `do`/`while` loop of `parseSearchOperations`).
`fuel` bounds the scan; every step strictly shortens the input, so
`length + 1` fuel is always enough. -/
def execSearchOps : Nat → List Char → List (List Char × List Char)
  | 0, _ => []
  | _ + 1, [] => []
  | fuel + 1, c :: rest =>
    match searchOpAt (c :: rest) with
    | none => execSearchOps fuel rest
    | some op =>
      let after := (c :: rest).drop op.length
      let afterSp := match after with
        | c' :: r' => if c'.isWhitespace then r' else c' :: r'
        | [] => ([] : List Char)
      match lookaheadValue afterSp with
      | some v => (op, v) :: execSearchOps fuel afterSp
      | none =>
        -- `\s?` backtracks to consuming nothing before the lookahead
        match lookaheadValue after with
        | some v => (op, v) :: execSearchOps fuel after
        | none => execSearchOps fuel rest

/-- Scanner for the index of the last `'"'` in a character list. -/
def lastQuoteIdxScan : List Char → Option Nat
  | [] => none
  | c :: rest =>
    match lastQuoteIdxScan rest with
    | some j => some (j + 1)
    | none => if c = '"' then some 0 else none

/-- Index of the last `'"'` reachable by `.+` (no newline crossing) in
the input, used by the greedy first alternative of
`searchMessageValuesRegex`. -/
def lastQuoteIdx (cs : List Char) : Option Nat :=
  lastQuoteIdxScan (cs.takeWhile (fun c => c ≠ '\n'))

/-- The values produced by repeatedly `exec`ing `searchMessageValuesRegex`
over a captured message text. -/
def execMsgValues : Nat → List Char → List (List Char)
  | 0, _ => []
  | _ + 1, [] => []
  | fuel + 1, c :: rest =>
    if c = '"' then
      match lastQuoteIdx rest with
      | some j =>
        if j ≥ 1 then
          ('"' :: rest.take j ++ ['"']) :: execMsgValues fuel (rest.drop (j + 1))
        else
          -- `".+"` needs at least one character between the quotes;
          -- fall back to the non-whitespace-run alternative
          let run := (c :: rest).takeWhile (fun ch => ch ≠ '\x08' && !ch.isWhitespace)
          run :: execMsgValues fuel ((c :: rest).drop run.length)
      | none =>
        let run := (c :: rest).takeWhile (fun ch => ch ≠ '\x08' && !ch.isWhitespace)
        run :: execMsgValues fuel ((c :: rest).drop run.length)
    else if c ≠ '\x08' && !c.isWhitespace then
      let run := (c :: rest).takeWhile (fun ch => ch ≠ '\x08' && !ch.isWhitespace)
      run :: execMsgValues fuel ((c :: rest).drop run.length)
    else
      execMsgValues fuel rest

/-- Accumulate a value under an operator key: `values.push(value)` when the
key already has values, `operations.set(op, [value])` otherwise. -/
def addOpValue (m : List (String × List String)) (op : String) (v : String) :
    List (String × List String) :=
  match lookupEntry m op with
  | some vs => setEntry m op (vs ++ [v])
  | none => m ++ [(op, [v])]

/-- The `normalizeSearchOperatorsMap` table (gitService.ts:174-186). -/
def normalizeSearchOperatorsMap : List (String × String) :=
  [("", "message:"), ("=:", "message:"), ("message:", "message:"),
   ("@:", "author:"), ("author:", "author:"),
   ("#:", "commit:"), ("commit:", "commit:"),
   ("?:", "file:"), ("file:", "file:"),
   ("~:", "change:"), ("change:", "change:")]

/-- Modelled from the spec: `Git.isSha` (`src/git/git.ts` is not among the
provided sources) — a sha is a 40-character lowercase-hex string ("sha
(string, 40-hex or sentinel ...)"). -/
def isSha (s : String) : Bool :=
  s.length = 40 && s.toList.all (fun c => c.isDigit || ('a' ≤ c && c ≤ 'f'))

/-- Embeds `GitService.parseSearchMessageOperations` (gitService.ts:3238-3267). -/
def parseSearchMessageOps (msg : List Char) (m : List (String × List String)) :
    List (String × List String) :=
  if msg.isEmpty then addOpValue m "message:" ""
  else
    (execMsgValues (msg.length + 1) msg).foldl
      (fun acc v => addOpValue acc "message:" (String.mk v)) m

/-- Embeds `GitService.parseSearchOperations` (gitService.ts:3189-3236): one
`exec` of `searchMessageOperationRegex` classifies the leading free text
(as a direct commit sha or as message text), then the
`searchOperationRegex` loop collects all `operator: value` pairs,
normalising shorthand operators via `normalizeSearchOperatorsMap`. -/
def parseSearchOperations (search : String) : List (String × List String) :=
  let cs := search.toList
  let m0 : List (String × List String) :=
    match firstLookaheadValue cs with
    | some v =>
      if v ≠ [] then
        if isSha (String.mk v) then addOpValue [] "commit:" (String.mk v)
        else parseSearchMessageOps v []
      else []
    | none => []
  (execSearchOps (cs.length + 1) cs).foldl
    (fun m ov =>
      let opN := match lookupEntry normalizeSearchOperatorsMap (String.mk ov.1) with
        | some o => o
        | none => String.mk ov.1
      if opN = "message:" then parseSearchMessageOps ov.2 m
      else addOpValue m opN (String.mk ov.2))
    m0

/-- C7: parsing `@:alice #:deadbeef123` yields exactly the two operations
`author: ↦ ["alice"]` and `commit: ↦ ["deadbeef123"]` (shorthand operators
normalised to their long forms) and produces no `message:` entry. -/
theorem c7_search_operator_normalization :
    parseSearchOperations "@:alice #:deadbeef123" =
      [("author:", ["alice"]), ("commit:", ["deadbeef123"])] ∧
    lookupEntry (parseSearchOperations "@:alice #:deadbeef123") "message:" = none := by
  constructor
  · rfl
  · rfl

/-! ## C8 — blame range slicing and author aggregation

Embedding of `GitService.getBlameForRangeSync` (gitService.ts:1046-1091).
Blame entities follow `src/git/models/` as used by that function: a blame
holds 1-based contiguous per-line records, a sha-keyed commit map whose
commits carry their own line lists, and an author map aggregating line
counts.  Editor ranges are 0-based (`range.start.line`/`range.end.line`). -/

/-- A per-line blame record (`GitCommitLine`). -/
structure GitCommitLine where
  sha : String
  line : Nat
  originalLine : Nat := 0
  deriving DecidableEq, Repr

/-- An aggregated author (`GitAuthor`): name and total line count. -/
structure GitAuthor where
  name : String
  lineCount : Nat
  deriving DecidableEq, Repr

/-- A blame commit (`GitBlameCommit`): the fields `getBlameForRangeSync`
reads, including the commit's own list of blamed lines. -/
structure GitBlameCommit where
  sha : String
  author : String
  lines : List GitCommitLine
  deriving DecidableEq, Repr

/-- The `c.with({ lines })` copy of a commit with a replaced line list. -/
def GitBlameCommit.withLines (c : GitBlameCommit) (ls : List GitCommitLine) : GitBlameCommit :=
  { c with lines := ls }

/-- A blame result (`GitBlame`). -/
structure GitBlame where
  repoPath : String
  authors : List (String × GitAuthor)
  commits : List (String × GitBlameCommit)
  lines : List GitCommitLine
  deriving DecidableEq, Repr

/-- A sliced blame result (`GitBlameLines`): a blame plus the original
full line list. -/
structure GitBlameLines where
  repoPath : String
  authors : List (String × GitAuthor)
  commits : List (String × GitBlameCommit)
  lines : List GitCommitLine
  allLines : List GitCommitLine
  deriving DecidableEq, Repr

/-- A 0-based editor line range (`vscode.Range` restricted to the two line
numbers `getBlameForRangeSync` reads). -/
structure LineRange where
  startLine : Nat
  endLine : Nat
  deriving DecidableEq, Repr

/-- Sum of the aggregated line counts of an author map. -/
def authorsTotal (authors : List (String × GitAuthor)) : Nat :=
  (authors.map (fun kv => kv.2.lineCount)).sum

/-- The author-map update of the commit loop: fetch-or-create the author
entry, then `author.lineCount += n` (the entry object is shared with the
map, so the increment is visible through it). -/
def addAuthorCount (m : List (String × GitAuthor)) (name : String) (n : Nat) :
    List (String × GitAuthor) :=
  match lookupEntry m name with
  | some a => setEntry m name ⟨name, a.lineCount + n⟩
  | none => m ++ [(name, ⟨name, n⟩)]

/-- One iteration of the `for (const c of blame.commits.values())` loop of
`getBlameForRangeSync`: commits outside the sliced shas are skipped,
matching commits are re-keyed with their in-range lines and their author's
count is increased by the filtered line count. -/
def blameRangeStep (shas : List String) (startLine endLine : Nat)
    (acc : List (String × GitAuthor) × List (String × GitBlameCommit))
    (c : GitBlameCommit) :
    List (String × GitAuthor) × List (String × GitBlameCommit) :=
  if shas.contains c.sha then
    let commit := c.withLines
      (c.lines.filter (fun l => decide (startLine ≤ l.line) && decide (l.line ≤ endLine)))
    (addAuthorCount acc.1 commit.author commit.lines.length,
     setEntry acc.2 c.sha commit)
  else acc

/-- Embeds `GitService.getBlameForRangeSync` (gitService.ts:1046-1091): empty or
full-range blames are returned as-is (plus `allLines`); otherwise the line
records are sliced (`Array.slice`, 0-based, end-inclusive via `+ 1`), the
commit map is rebuilt with per-commit lines restricted to the 1-based
range, authors are re-aggregated and sorted by descending line count. -/
def getBlameForRangeSync (blame : GitBlame) (uriRepoPath : String) (range : LineRange) :
    GitBlameLines :=
  if blame.lines.length = 0 then
    ⟨blame.repoPath, blame.authors, blame.commits, blame.lines, blame.lines⟩
  else if range.startLine = 0 ∧ range.endLine = blame.lines.length - 1 then
    ⟨blame.repoPath, blame.authors, blame.commits, blame.lines, blame.lines⟩
  else
    let lines := (blame.lines.drop range.startLine).take (range.endLine + 1 - range.startLine)
    let shas := lines.map (·.sha)
    let startLine := range.startLine + 1
    let endLine := range.endLine + 1
    let folded := blame.commits.foldl
      (fun acc kv => blameRangeStep shas startLine endLine acc kv.2) ([], [])
    let sortedAuthors := folded.1.mergeSort
      (fun a b => decide (b.2.lineCount ≤ a.2.lineCount))
    ⟨uriRepoPath, sortedAuthors, folded.2, lines, blame.lines⟩

/-- The blame invariant of the spec: line numbers are 1-based and
contiguous, the commit map is keyed by sha without duplicates, each
commit's line list is exactly the blamed lines carrying its sha (so the
commits' line lists partition the blamed lines), every line's sha has a
commit entry, and the author map aggregates to the total line count. -/
structure BlameWf (blame : GitBlame) : Prop where
  contiguous : ∀ i (h : i < blame.lines.length), (blame.lines.get ⟨i, h⟩).line = i + 1
  keysNodup : (keysOf blame.commits).Nodup
  keyed : ∀ kv ∈ blame.commits, kv.2.sha = kv.1
  partitioned : ∀ kv ∈ blame.commits,
    kv.2.lines = blame.lines.filter (fun l => l.sha == kv.1)
  covered : ∀ l ∈ blame.lines, l.sha ∈ keysOf blame.commits
  authorsAgg : authorsTotal blame.authors = blame.lines.length

@[simp] theorem authorsTotal_nil : authorsTotal [] = 0 := rfl

@[simp] theorem authorsTotal_cons (x : String × GitAuthor) (xs : List (String × GitAuthor)) :
    authorsTotal (x :: xs) = x.2.lineCount + authorsTotal xs := by
  simp [authorsTotal]

theorem authorsTotal_append (a b : List (String × GitAuthor)) :
    authorsTotal (a ++ b) = authorsTotal a + authorsTotal b := by
  simp [authorsTotal]

theorem authorsTotal_setEntry_of_lookup (m : List (String × GitAuthor)) (k : String)
    (a : GitAuthor) (n : Nat) (h : lookupEntry m k = some a) :
    authorsTotal (setEntry m k ⟨k, a.lineCount + n⟩) = authorsTotal m + n := by
  induction m with
  | nil => simp [lookupEntry] at h
  | cons hd tl ih =>
    by_cases hk : hd.1 = k
    · simp [lookupEntry, hk] at h
      subst h
      simp [setEntry, hk]
      omega
    · simp [lookupEntry, hk] at h
      simp [setEntry, hk, ih h]
      omega

theorem authorsTotal_addAuthorCount (m : List (String × GitAuthor)) (name : String) (n : Nat) :
    authorsTotal (addAuthorCount m name n) = authorsTotal m + n := by
  unfold addAuthorCount
  cases h : lookupEntry m name with
  | none => simp [authorsTotal_append]
  | some a => exact authorsTotal_setEntry_of_lookup m name a n h

/-- The author-count contribution of one commit of the range loop. -/
def blameContrib (shas : List String) (startLine endLine : Nat) (c : GitBlameCommit) : Nat :=
  if shas.contains c.sha then
    (c.lines.filter (fun l => decide (startLine ≤ l.line) && decide (l.line ≤ endLine))).length
  else 0

theorem blameRange_fold_authorsTotal (shas : List String) (startLine endLine : Nat)
    (commits : List (String × GitBlameCommit))
    (acc : List (String × GitAuthor) × List (String × GitBlameCommit)) :
    authorsTotal
        (commits.foldl (fun acc kv => blameRangeStep shas startLine endLine acc kv.2) acc).1
      = authorsTotal acc.1
        + (commits.map (fun kv => blameContrib shas startLine endLine kv.2)).sum := by
  induction commits generalizing acc with
  | nil => simp
  | cons hd tl ih =>
    rw [List.foldl_cons, ih]
    unfold blameRangeStep blameContrib
    by_cases h : shas.contains hd.2.sha
    · simp only [h, if_true, GitBlameCommit.withLines, List.map_cons, List.sum_cons]
      rw [authorsTotal_addAuthorCount]
      omega
    · simp only [h, Bool.false_eq_true, if_false, List.map_cons, List.sum_cons]
      omega

theorem authorsTotal_mergeSort (m : List (String × GitAuthor))
    (le : (String × GitAuthor) → (String × GitAuthor) → Bool) :
    authorsTotal (m.mergeSort le) = authorsTotal m := by
  unfold authorsTotal
  exact ((List.mergeSort_perm m le).map _).sum_eq

theorem contiguous_lower_bound (l : List GitCommitLine) (o : Nat)
    (hc : ∀ i (h : i < l.length), (l.get ⟨i, h⟩).line = o + i + 1) :
    ∀ x ∈ l, o + 1 ≤ x.line := by
  intro x hx
  obtain ⟨i, hi⟩ := List.mem_iff_get.mp hx
  have h := hc i.1 i.2
  rw [Fin.eta, hi] at h
  omega

theorem contiguous_slice (l : List GitCommitLine) (o s n : Nat)
    (hc : ∀ i (h : i < l.length), (l.get ⟨i, h⟩).line = o + i + 1) :
    (l.drop s).take n
      = l.filter (fun x => decide (o + s + 1 ≤ x.line) && decide (x.line ≤ o + s + n)) := by
  induction l generalizing o s n with
  | nil => simp
  | cons x rest ih =>
    have hx : x.line = o + 1 := by simpa using hc 0 (by simp)
    have hrest : ∀ i (h : i < rest.length), (rest.get ⟨i, h⟩).line = (o + 1) + i + 1 := by
      intro i h
      have hstep := hc (i + 1) (by simpa using Nat.succ_lt_succ h)
      have hget : ((x :: rest).get ⟨i + 1, by simpa using Nat.succ_lt_succ h⟩)
          = rest.get ⟨i, h⟩ := rfl
      rw [hget] at hstep
      omega
    have hlow := contiguous_lower_bound rest (o + 1) hrest
    cases s with
    | zero =>
      cases n with
      | zero =>
        simp only [List.drop_zero, List.take_zero]
        symm
        apply List.filter_eq_nil_iff.mpr
        intro a ha
        have h1 : o + 1 ≤ a.line := contiguous_lower_bound (x :: rest) o hc a ha
        simp only [Bool.and_eq_true, decide_eq_true_eq, not_and]
        intro _
        omega
      | succ m =>
        simp only [List.drop_zero, List.take_succ_cons, List.filter_cons]
        have hcx : (decide (o + 0 + 1 ≤ x.line) && decide (x.line ≤ o + 0 + (m + 1))) = true := by
          simp only [Bool.and_eq_true, decide_eq_true_eq]
          omega
        rw [hcx]
        simp only [if_true]
        congr 1
        have hih := ih (o + 1) 0 m hrest
        rw [List.drop_zero] at hih
        rw [hih]
        apply List.filter_congr
        intro a ha
        have h1 : (o + 1) + 1 ≤ a.line := hlow a ha
        have e1 : decide (o + 0 + 1 ≤ a.line) = true := by
          simp only [decide_eq_true_eq]; omega
        have e2 : decide ((o + 1) + 0 + 1 ≤ a.line) = true := by
          simp only [decide_eq_true_eq]; omega
        have e3 : decide (a.line ≤ o + 0 + (m + 1)) = decide (a.line ≤ (o + 1) + 0 + m) :=
          decide_eq_decide.mpr (by omega)
        rw [e1, e2, e3]
    | succ m =>
      rw [List.drop_succ_cons, ih (o + 1) m n hrest, List.filter_cons]
      have hcx : (decide (o + (m + 1) + 1 ≤ x.line) && decide (x.line ≤ o + (m + 1) + n))
          = false := by
        have hno : ¬(o + (m + 1) + 1 ≤ x.line) := by omega
        simp [hno]
      rw [hcx]
      simp only [Bool.false_eq_true, if_false]
      apply List.filter_congr
      intro a ha
      have e1 : decide ((o + 1) + m + 1 ≤ a.line) = decide (o + (m + 1) + 1 ≤ a.line) :=
        decide_eq_decide.mpr (by omega)
      have e2 : decide (a.line ≤ (o + 1) + m + n) = decide (a.line ≤ o + (m + 1) + n) :=
        decide_eq_decide.mpr (by omega)
      rw [e1, e2]

theorem filter_length_split (l : List GitCommitLine) (p : GitCommitLine → Bool) (s : String) :
    (l.filter p).length =
      (l.filter (fun x => x.sha == s && p x)).length +
      (l.filter (fun x => !(x.sha == s) && p x)).length := by
  induction l with
  | nil => rfl
  | cons x xs ih =>
    simp only [List.filter_cons]
    by_cases hp : p x = true
    · by_cases hs : x.sha = s
      · simp only [hp, hs, if_true, beq_self_eq_true, Bool.and_self, Bool.true_and,
          Bool.not_true, Bool.false_and, Bool.false_eq_true, if_false, List.length_cons]
        omega
      · have hb : (x.sha == s) = false := beq_eq_false_iff_ne.mpr hs
        simp only [hp, hb, if_true, Bool.false_and, Bool.not_false, Bool.true_and,
          Bool.false_eq_true, if_false, List.length_cons]
        omega
    · have hp' : p x = false := Bool.eq_false_iff.mpr hp
      simp only [hp', Bool.and_false, Bool.false_eq_true, if_false]
      exact ih

theorem length_filter_partition (keys : List String) (l : List GitCommitLine)
    (p : GitCommitLine → Bool) (hnd : keys.Nodup)
    (hcov : ∀ x ∈ l, p x = true → x.sha ∈ keys) :
    (keys.map (fun s => (l.filter (fun x => x.sha == s && p x)).length)).sum
      = (l.filter p).length := by
  induction keys generalizing l with
  | nil =>
    have hempty : l.filter p = [] := List.filter_eq_nil_iff.mpr
      (fun a ha hpa => absurd (hcov a ha hpa) (List.not_mem_nil a.sha))
    simp [hempty]
  | cons s ks ih =>
    rw [List.map_cons, List.sum_cons]
    have hnd' := List.nodup_cons.mp hnd
    have hterm : ∀ t ∈ ks,
        (l.filter (fun x => !(x.sha == s))).filter (fun x => x.sha == t && p x)
          = l.filter (fun x => x.sha == t && p x) := by
      intro t ht
      rw [List.filter_filter]
      apply List.filter_congr
      intro a _
      by_cases hat : a.sha = t
      · have hts : ¬a.sha = s := fun hcon => hnd'.1 ((hcon ▸ hat : s = t) ▸ ht)
        have hb : (a.sha == s) = false := beq_eq_false_iff_ne.mpr hts
        simp [hb]
      · have hb : (a.sha == t) = false := beq_eq_false_iff_ne.mpr hat
        simp [hb]
    have hcov' : ∀ x ∈ l.filter (fun x => !(x.sha == s)), p x = true → x.sha ∈ ks := by
      intro x hx hpx
      have hmem := List.mem_filter.mp hx
      have hin := hcov x hmem.1 hpx
      rcases List.mem_cons.mp hin with hxs | hxs
      · exfalso
        have := hmem.2
        rw [hxs] at this
        simp at this
      · exact hxs
    have hmap : (ks.map (fun t => (l.filter (fun x => x.sha == t && p x)).length)).sum
        = (ks.map (fun t =>
            ((l.filter (fun x => !(x.sha == s))).filter (fun x => x.sha == t && p x)).length)).sum := by
      congr 1
      exact List.map_congr_left (fun t ht => by rw [hterm t ht])
    rw [hmap, ih (l.filter (fun x => !(x.sha == s))) hnd'.2 hcov']
    have hff : (l.filter (fun x => !(x.sha == s))).filter p
        = l.filter (fun x => !(x.sha == s) && p x) := by
      rw [List.filter_filter]
      apply List.filter_congr
      intro a _
      exact Bool.and_comm _ _
    rw [hff]
    exact (filter_length_split l p s).symm

/-- C8: for any blame satisfying the blame invariant and any editor range,
the sliced result of `getBlameForRangeSync` has its authors' aggregated
line counts summing to the number of lines in the returned line
sequence. -/
theorem c8_blame_range_author_aggregation (blame : GitBlame) (uriRepoPath : String)
    (range : LineRange) (hwf : BlameWf blame) :
    authorsTotal (getBlameForRangeSync blame uriRepoPath range).authors
      = (getBlameForRangeSync blame uriRepoPath range).lines.length := by
  unfold getBlameForRangeSync
  by_cases h0 : blame.lines.length = 0
  · simp [h0, hwf.authorsAgg]
  · by_cases hfull : range.startLine = 0 ∧ range.endLine = blame.lines.length - 1
    · simp [h0, hfull, hwf.authorsAgg]
    · rw [if_neg h0, if_neg hfull]
      simp only []
      set s := range.startLine with hs
      set e := range.endLine with he
      set F : GitCommitLine → Bool :=
        fun x => decide (s + 1 ≤ x.line) && decide (x.line ≤ e + 1) with hF
      have hslice : (blame.lines.drop s).take (e + 1 - s) = blame.lines.filter F := by
        by_cases hse : s ≤ e + 1
        · have hcs := contiguous_slice blame.lines 0 s (e + 1 - s)
            (by intro i h; simpa using hwf.contiguous i h)
          rw [hcs]
          apply List.filter_congr
          intro a _
          have e1 : decide (0 + s + 1 ≤ a.line) = decide (s + 1 ≤ a.line) :=
            decide_eq_decide.mpr (by omega)
          have e2 : decide (a.line ≤ 0 + s + (e + 1 - s)) = decide (a.line ≤ e + 1) :=
            decide_eq_decide.mpr (by omega)
          rw [e1, e2]
        · have htake : (blame.lines.drop s).take (e + 1 - s) = [] := by
            have : e + 1 - s = 0 := by omega
            simp [this]
          have hfil : blame.lines.filter F = [] := by
            apply List.filter_eq_nil_iff.mpr
            intro a _
            rw [hF]
            simp only [Bool.and_eq_true, decide_eq_true_eq, not_and]
            intro _
            omega
          rw [htake, hfil]
      rw [hslice]
      rw [authorsTotal_mergeSort]
      rw [blameRange_fold_authorsTotal]
      simp only [authorsTotal_nil, Nat.zero_add]
      set shas := (blame.lines.filter F).map (·.sha) with hshas
      have hcontrib : ∀ kv ∈ blame.commits,
          blameContrib shas (s + 1) (e + 1) kv.2
            = (blame.lines.filter (fun x => x.sha == kv.1 && F x)).length := by
        intro kv hkv
        unfold blameContrib
        have hk : kv.2.sha = kv.1 := hwf.keyed kv hkv
        have hl : kv.2.lines = blame.lines.filter (fun l => l.sha == kv.1) :=
          hwf.partitioned kv hkv
        by_cases hin : shas.contains kv.2.sha = true
        · rw [if_pos hin, hl, List.filter_filter]
          congr 1
          apply List.filter_congr
          intro a _
          rw [hF]
          exact Bool.and_comm _ _
        · rw [if_neg hin]
          symm
          rw [List.length_eq_zero]
          apply List.filter_eq_nil_iff.mpr
          intro a ha
          simp only [Bool.and_eq_true, beq_iff_eq, not_and]
          intro hak haF
          have hain : a ∈ blame.lines.filter F := List.mem_filter.mpr ⟨ha, haF⟩
          have : a.sha ∈ shas := by
            rw [hshas]
            exact List.mem_map.mpr ⟨a, hain, rfl⟩
          rw [hak, ← hk] at this
          exact hin (List.elem_eq_true_of_mem this)
      have hsum : (blame.commits.map
            (fun kv => blameContrib shas (s + 1) (e + 1) kv.2)).sum
          = ((keysOf blame.commits).map
              (fun k => (blame.lines.filter (fun x => x.sha == k && F x)).length)).sum := by
        rw [keysOf, List.map_map]
        congr 1
        exact List.map_congr_left (fun kv hkv => hcontrib kv hkv)
      rw [hsum]
      exact length_filter_partition (keysOf blame.commits) blame.lines F
        hwf.keysNodup (fun x hx _ => hwf.covered x hx)

/-- Witness for C8: a concrete two-line blame satisfying the invariant,
sliced to its first line, has author totals matching the sliced line
count. -/
theorem c8_blame_range_author_aggregation_witness :
    (BlameWf ⟨"/r", [("alice", ⟨"alice", 2⟩)],
        [("s1", ⟨"s1", "alice", [⟨"s1", 1, 1⟩, ⟨"s1", 2, 2⟩]⟩)],
        [⟨"s1", 1, 1⟩, ⟨"s1", 2, 2⟩]⟩) ∧
    authorsTotal (getBlameForRangeSync
        ⟨"/r", [("alice", ⟨"alice", 2⟩)],
          [("s1", ⟨"s1", "alice", [⟨"s1", 1, 1⟩, ⟨"s1", 2, 2⟩]⟩)],
          [⟨"s1", 1, 1⟩, ⟨"s1", 2, 2⟩]⟩ "/r" ⟨0, 0⟩).authors
      = (getBlameForRangeSync
        ⟨"/r", [("alice", ⟨"alice", 2⟩)],
          [("s1", ⟨"s1", "alice", [⟨"s1", 1, 1⟩, ⟨"s1", 2, 2⟩]⟩)],
          [⟨"s1", 1, 1⟩, ⟨"s1", 2, 2⟩]⟩ "/r" ⟨0, 0⟩).lines.length := by
  have hwf : BlameWf ⟨"/r", [("alice", ⟨"alice", 2⟩)],
      [("s1", ⟨"s1", "alice", [⟨"s1", 1, 1⟩, ⟨"s1", 2, 2⟩]⟩)],
      [⟨"s1", 1, 1⟩, ⟨"s1", 2, 2⟩]⟩ := by
    refine ⟨?_, ?_, ?_, ?_, ?_, ?_⟩
    · intro i h
      match i, h with
      | 0, _ => rfl
      | 1, _ => rfl
    · decide
    · decide
    · decide
    · decide
    · decide
  exact ⟨hwf, c8_blame_range_author_aggregation _ "/r" ⟨0, 0⟩ hwf⟩

/-! ## C4/C5 — log pagination ("load more") continuations

Embedding of the closures returned by `GitService.getLogMoreFn`
(gitService.ts:1546-1586) and `GitService.getLogForFileMoreFn`
(gitService.ts:1924-1966).  The re-query they perform
(`this.getLog(...)` / `this.getLogForFile(...)`) is an asynchronous git
invocation and is represented by an explicit `fetch` oracle from the
query parameters to the `GitLog | undefined` it produces.  The `query`
and `more` closure fields of a `GitLog` are not data in the embedding:
the `more` closure of a log `l` is the function `getLogMore cfg fetch l`
itself (rebinding `more` on the merged log corresponds to applying it to
the merged value). -/

/-- A log commit: the fields the pagination closures read (`c.ref` is the
commit's sha). -/
structure GitLogCommit where
  ref : String
  author : String := ""
  deriving DecidableEq, Repr

/-- A log result (`GitLog`) without its closure fields. -/
structure GitLog where
  repoPath : String
  authors : List (String × GitAuthor)
  commits : List (String × GitLogCommit)
  sha : Option String := none
  range : Option LineRange := none
  count : Nat
  limit : Option Nat := none
  hasMore : Bool
  deriving DecidableEq, Repr

/-- Template interpolation `${x}`: `undefined` prints as "undefined". -/
def tsStr : Option String → String
  | some s => s
  | none => "undefined"

/-- The `limit` argument of a `more` continuation:
`number | { until: string } | undefined`. -/
inductive MoreLimit where
  | num (n : Nat)
  | untilRef (sha : String)
  | undef
  deriving DecidableEq, Repr

/-- The distinguishing parameters of the re-query a continuation performs
(the `ref` and `limit` members it overrides on its captured options). -/
structure MoreQuery where
  ref : String
  limit : Nat
  deriving DecidableEq, Repr

/-- The configuration value the continuations read
(`Container.config.advanced.maxSearchItems ?? 0`, with the `?? 0` folded
in). -/
structure MoreConfig where
  maxSearchItems : Nat := 0
  deriving Repr

/-- The `Iterables.last(log.commits.values())?.ref` expression: the oldest known sha. -/
def oldestRef (log : GitLog) : Option String :=
  (log.commits.getLast?).map (fun kv => kv.2.ref)

/-- The closure returned by `GitService.getLogMoreFn`
(gitService.ts:1546-1586): an `until` sha already present returns the log
unchanged; otherwise a re-query is issued (`oldest^` with the numeric
limit, or `until^..oldest^` with limit 0); a failed re-query yields
`{ ...log, hasMore: false }`; otherwise the author and commit maps are
merged (`new Map([...old, ...new])`), `count` is the sum, and
`hasMore`/`limit`/`range` are recomputed as in the source. -/
def getLogMore (cfg : MoreConfig) (fetch : MoreQuery → Option GitLog)
    (log : GitLog) (limit : MoreLimit) : GitLog :=
  let moreUntil : Option String := match limit with
    | .untilRef s => some s
    | _ => none
  let moreLimit0 : Option Nat := match limit with
    | .num n => some n
    | _ => none
  let untilHit : Bool := match moreUntil with
    | some u => u ≠ "" && log.commits.any (fun kv => kv.2.ref == u)
    | none => false
  if untilHit then log
  else
    let moreLimit := moreLimit0.getD cfg.maxSearchItems
    let q : MoreQuery :=
      { ref := match moreUntil with
          | none => tsStr (oldestRef log) ++ "^"
          | some u => u ++ "^.." ++ tsStr (oldestRef log) ++ "^"
        limit := match moreUntil with
          | none => moreLimit
          | some _ => 0 }
    match fetch q with
    | none => { log with hasMore := false }
    | some moreLog =>
      { repoPath := log.repoPath
        authors := jsMapMerge log.authors moreLog.authors
        commits := jsMapMerge log.commits moreLog.commits
        sha := log.sha
        range := none
        count := log.count + moreLog.count
        limit := match moreUntil with
          | none => some (log.limit.getD 0 + moreLimit)
          | some _ => none
        hasMore := match moreUntil with
          | none => moreLog.hasMore
          | some _ => true }

/-- The closure returned by `GitService.getLogForFileMoreFn`
(gitService.ts:1924-1966): identical to `getLogMoreFn`'s closure except
that the merged log keeps `range: log.range`. -/
def getLogForFileMore (cfg : MoreConfig) (fetch : MoreQuery → Option GitLog)
    (log : GitLog) (limit : MoreLimit) : GitLog :=
  let moreUntil : Option String := match limit with
    | .untilRef s => some s
    | _ => none
  let moreLimit0 : Option Nat := match limit with
    | .num n => some n
    | _ => none
  let untilHit : Bool := match moreUntil with
    | some u => u ≠ "" && log.commits.any (fun kv => kv.2.ref == u)
    | none => false
  if untilHit then log
  else
    let moreLimit := moreLimit0.getD cfg.maxSearchItems
    let q : MoreQuery :=
      { ref := match moreUntil with
          | none => tsStr (oldestRef log) ++ "^"
          | some u => u ++ "^.." ++ tsStr (oldestRef log) ++ "^"
        limit := match moreUntil with
          | none => moreLimit
          | some _ => 0 }
    match fetch q with
    | none => { log with hasMore := false }
    | some moreLog =>
      { repoPath := log.repoPath
        authors := jsMapMerge log.authors moreLog.authors
        commits := jsMapMerge log.commits moreLog.commits
        sha := log.sha
        range := log.range
        count := log.count + moreLog.count
        limit := match moreUntil with
          | none => some (log.limit.getD 0 + moreLimit)
          | some _ => none
        hasMore := match moreUntil with
          | none => moreLog.hasMore
          | some _ => true }

/-- C4: for both pagination continuations — an `until` sha already present
returns the log unchanged; a numeric limit `n` re-queries `oldest^` with
limit `n` and an absent `until` sha re-queries `until^..oldest^` in one
shot; when the re-query succeeds and brings genuinely new entries, the
merged log lists the existing commit and author entries first followed by
the newly fetched ones, with `count` and `hasMore` recomputed (sum of
counts; the fetched log's `hasMore` for the numeric form, `true` for the
`until` form). -/
theorem c4_log_more_extends (cfg : MoreConfig) (fetch : MoreQuery → Option GitLog)
    (log : GitLog) :
    (∀ u, u ≠ "" → log.commits.any (fun kv => kv.2.ref == u) = true →
      getLogMore cfg fetch log (.untilRef u) = log ∧
      getLogForFileMore cfg fetch log (.untilRef u) = log) ∧
    (∀ n m, fetch ⟨tsStr (oldestRef log) ++ "^", n⟩ = some m →
      (∀ k, k ∈ keysOf m.commits → k ∉ keysOf log.commits) → (keysOf m.commits).Nodup →
      (∀ k, k ∈ keysOf m.authors → k ∉ keysOf log.authors) → (keysOf m.authors).Nodup →
      getLogMore cfg fetch log (.num n) =
        { repoPath := log.repoPath, authors := log.authors ++ m.authors,
          commits := log.commits ++ m.commits, sha := log.sha, range := none,
          count := log.count + m.count, limit := some (log.limit.getD 0 + n),
          hasMore := m.hasMore } ∧
      getLogForFileMore cfg fetch log (.num n) =
        { repoPath := log.repoPath, authors := log.authors ++ m.authors,
          commits := log.commits ++ m.commits, sha := log.sha, range := log.range,
          count := log.count + m.count, limit := some (log.limit.getD 0 + n),
          hasMore := m.hasMore }) ∧
    (∀ u m, u ≠ "" → log.commits.any (fun kv => kv.2.ref == u) = false →
      fetch ⟨u ++ "^.." ++ tsStr (oldestRef log) ++ "^", 0⟩ = some m →
      (∀ k, k ∈ keysOf m.commits → k ∉ keysOf log.commits) → (keysOf m.commits).Nodup →
      (∀ k, k ∈ keysOf m.authors → k ∉ keysOf log.authors) → (keysOf m.authors).Nodup →
      getLogMore cfg fetch log (.untilRef u) =
        { repoPath := log.repoPath, authors := log.authors ++ m.authors,
          commits := log.commits ++ m.commits, sha := log.sha, range := none,
          count := log.count + m.count, limit := none, hasMore := true } ∧
      getLogForFileMore cfg fetch log (.untilRef u) =
        { repoPath := log.repoPath, authors := log.authors ++ m.authors,
          commits := log.commits ++ m.commits, sha := log.sha, range := log.range,
          count := log.count + m.count, limit := none, hasMore := true }) := by
  refine ⟨?_, ?_, ?_⟩
  · intro u hu hhit
    constructor
    · unfold getLogMore
      simp [hu, hhit]
    · unfold getLogForFileMore
      simp [hu, hhit]
  · intro n m hfetch hcd hcn had han
    constructor
    · unfold getLogMore
      simp only [Option.getD_some, Bool.false_eq_true, if_false, hfetch]
      rw [jsMapMerge_eq_append _ _ hcd hcn, jsMapMerge_eq_append _ _ had han]
    · unfold getLogForFileMore
      simp only [Option.getD_some, Bool.false_eq_true, if_false, hfetch]
      rw [jsMapMerge_eq_append _ _ hcd hcn, jsMapMerge_eq_append _ _ had han]
  · intro u m hu hmiss hfetch hcd hcn had han
    constructor
    · unfold getLogMore
      simp only [hmiss, Bool.and_false, Bool.false_eq_true, if_false, hfetch]
      rw [jsMapMerge_eq_append _ _ hcd hcn, jsMapMerge_eq_append _ _ had han]
    · unfold getLogForFileMore
      simp only [hmiss, Bool.and_false, Bool.false_eq_true, if_false, hfetch]
      rw [jsMapMerge_eq_append _ _ hcd hcn, jsMapMerge_eq_append _ _ had han]

/-- Witness for C4: a concrete one-commit log extended by a concrete
fetched page; the merged log appends the new commit and sums the counts. -/
theorem c4_log_more_extends_witness :
    getLogMore ⟨0⟩
        (fun q => if q.ref = "b^" ∧ q.limit = 1 then
          some ⟨"/r", [("y", ⟨"y", 1⟩)], [("a", ⟨"a", "y"⟩)], none, none, 1, none, false⟩
          else none)
        ⟨"/r", [("x", ⟨"x", 1⟩)], [("b", ⟨"b", "x"⟩)], none, none, 1, some 1, true⟩ (.num 1) =
      ⟨"/r", [("x", ⟨"x", 1⟩), ("y", ⟨"y", 1⟩)],
        [("b", ⟨"b", "x"⟩), ("a", ⟨"a", "y"⟩)], none, none, 2, some 2, false⟩ := by
  have h := ((c4_log_more_extends ⟨0⟩
      (fun q => if q.ref = "b^" ∧ q.limit = 1 then
        some ⟨"/r", [("y", ⟨"y", 1⟩)], [("a", ⟨"a", "y"⟩)], none, none, 1, none, false⟩
        else none)
      ⟨"/r", [("x", ⟨"x", 1⟩)], [("b", ⟨"b", "x"⟩)], none, none, 1, some 1, true⟩).2.1
      1 ⟨"/r", [("y", ⟨"y", 1⟩)], [("a", ⟨"a", "y"⟩)], none, none, 1, none, false⟩
      (by decide) (by decide) (by decide) (by decide) (by decide)).1
  exact h

/-- Counterexample for C5: the `more` continuation never consults
`hasMore`; on a log whose `hasMore` is already `false`, a re-query that
returns a further page produces a log with a larger commit count and
`hasMore: true`. -/
theorem c5_more_after_hasMore_false_counterexample :
    (⟨"/r", [], [("a", ⟨"a", "x"⟩)], none, none, 1, some 1, false⟩ : GitLog).hasMore = false ∧
    (getLogMore ⟨0⟩
        (fun _ => some ⟨"/r", [], [("b", ⟨"b", "y"⟩)], none, none, 1, none, true⟩)
        ⟨"/r", [], [("a", ⟨"a", "x"⟩)], none, none, 1, some 1, false⟩ (.num 1)).hasMore = true ∧
    (getLogMore ⟨0⟩
        (fun _ => some ⟨"/r", [], [("b", ⟨"b", "y"⟩)], none, none, 1, none, true⟩)
        ⟨"/r", [], [("a", ⟨"a", "x"⟩)], none, none, 1, some 1, false⟩ (.num 1)).count = 2 := by
  refine ⟨rfl, rfl, rfl⟩

/-- C5 (amended): once every further re-query comes back empty — the
situation after the full history has been loaded, when `oldest^` no longer
resolves — both `more` continuations return a log with `hasMore: false`
and an unchanged commit count, for any argument; the continuations
themselves never consult `hasMore`. -/
theorem c5_more_idempotent_when_query_exhausted (cfg : MoreConfig)
    (fetch : MoreQuery → Option GitLog) (log : GitLog) (arg : MoreLimit)
    (hasMoreFalse : log.hasMore = false) (hexhausted : ∀ q, fetch q = none) :
    (getLogMore cfg fetch log arg).hasMore = false ∧
    (getLogMore cfg fetch log arg).count = log.count ∧
    (getLogForFileMore cfg fetch log arg).hasMore = false ∧
    (getLogForFileMore cfg fetch log arg).count = log.count := by
  unfold getLogMore getLogForFileMore
  cases arg with
  | num n => simp [hexhausted]
  | undef => simp [hexhausted]
  | untilRef u =>
    dsimp only
    refine ⟨?_, ?_, ?_, ?_⟩
    · split
      · exact hasMoreFalse
      · simp [hexhausted]
    · split
      · rfl
      · simp [hexhausted]
    · split
      · exact hasMoreFalse
      · simp [hexhausted]
    · split
      · rfl
      · simp [hexhausted]

/-- Witness for C5 (amended): a concrete exhausted fetch leaves a concrete
`hasMore: false` log unchanged in count with `hasMore` still `false`. -/
theorem c5_more_idempotent_when_query_exhausted_witness :
    ((⟨"/r", [], [("a", ⟨"a", "x"⟩)], none, none, 1, some 1, false⟩ : GitLog).hasMore = false) ∧
    (getLogMore ⟨0⟩ (fun _ => none)
        ⟨"/r", [], [("a", ⟨"a", "x"⟩)], none, none, 1, some 1, false⟩ (.num 5)).hasMore = false ∧
    (getLogMore ⟨0⟩ (fun _ => none)
        ⟨"/r", [], [("a", ⟨"a", "x"⟩)], none, none, 1, some 1, false⟩ (.num 5)).count = 1 := by
  have h := c5_more_idempotent_when_query_exhausted ⟨0⟩ (fun _ => none)
    ⟨"/r", [], [("a", ⟨"a", "x"⟩)], none, none, 1, some 1, false⟩ (.num 5) rfl (fun _ => rfl)
  exact ⟨rfl, h.1, h.2.1⟩

/-! ## C6 — the caching master switch and the branches/tags caches

Embedding of `GitService.getBranches` (gitService.ts:1114-1159) and
`GitService.getTags` (gitService.ts:2772-2807).  Both share the same
`try`/`finally` shape: cache probe, `git` invocation plus parse, optional
store keyed on `repo.supportsChangeEvents`, then a `finally` block that
filters/sorts.  `getBranches` guards both its cache read and its cache
write behind `this.useCaching` (`Container.config.advanced.caching.enabled`,
gitService.ts:243-245); `getTags` reads and writes its cache without ever
consulting that flag.

JS mutation subtlety mirrored here: when no `filter` is given, the
`finally` block sorts the returned array *in place*; on the cache-hit and
just-stored paths that array is the one referenced by the cache, so the
cache binding becomes sorted too.  With a `filter`, `Array.filter`
allocates a fresh array and the cache binding is untouched.

The git subprocess plus parser composition is an oracle (`git.ts` and the
parsers are not under src/): `forEachRef` is the parsed output of
`git for-each-ref` (with `none` for a reply with no data), `currentBranch`
is the `getBranch` fallback for empty repositories, and
`repoSupportsChangeEvents` is `getRepository(repoPath)?.supportsChangeEvents`.
The third component of each result counts git invocations made by the
operation itself. -/

/-- Oracle for the external calls `getBranches` makes. -/
structure BranchesOracle where
  forEachRef : Option (List GitBranch)
  currentBranch : Option GitBranch
  repoSupportsChangeEvents : Option Bool

/-- Oracle for the external calls `getTags` makes (`parsedTags` is
`GitTagParser.parse(data, repoPath) || []`). -/
structure TagsOracle where
  parsedTags : List GitTag
  repoSupportsChangeEvents : Option Bool

/-- Embeds `GitService.getBranches` (gitService.ts:1114-1159).  `sortFn` stands
for `GitBranch.sort` (models are not under src/).  Returns the branches
handed to the caller, the branches cache afterwards, and the number of
git invocations. -/
def getBranches (useCaching : Bool) (o : BranchesOracle)
    (sortFn : List GitBranch → List GitBranch)
    (repoPath : Option String) (filter : Option (GitBranch → Bool)) (sort : Bool)
    (cache : List (String × List GitBranch)) :
    List GitBranch × List (String × List GitBranch) × Nat :=
  match repoPath with
  | none => ([], cache, 0)
  | some rp =>
    let cachedHit : Option (List GitBranch) :=
      if useCaching then lookupEntry cache rp else none
    let state : List GitBranch × List (String × List GitBranch) × Nat × Bool :=
      match cachedHit with
      | some bs => (bs, cache, 0, true)
      | none =>
        let fetched : List GitBranch :=
          match o.forEachRef with
          | some parsed => parsed
          | none =>
            match o.currentBranch with
            | some b => [b]
            | none => []
        if useCaching ∧ o.repoSupportsChangeEvents = some true then
          (fetched, setEntry cache rp fetched, 1, true)
        else (fetched, cache, 1, false)
    let branches := state.1
    let cacheTry := state.2.1
    let spawns := state.2.2.1
    let aliased := state.2.2.2
    match filter with
    | some f =>
      let res := branches.filter f
      ((if sort then sortFn res else res), cacheTry, spawns)
    | none =>
      if sort then
        (sortFn branches,
         (if aliased then setEntry cacheTry rp (sortFn branches) else cacheTry),
         spawns)
      else (branches, cacheTry, spawns)

/-- Embeds `GitService.getTags` (gitService.ts:2772-2807).  Identical shape to
`getBranches`, but the cache probe and the cache store are *not* guarded
by `useCaching` — the method never reads the flag, so the embedding takes
no such parameter. -/
def getTags (o : TagsOracle) (sortFn : List GitTag → List GitTag)
    (repoPath : Option String) (filter : Option (GitTag → Bool)) (sort : Bool)
    (cache : List (String × List GitTag)) :
    List GitTag × List (String × List GitTag) × Nat :=
  match repoPath with
  | none => ([], cache, 0)
  | some rp =>
    let cachedHit : Option (List GitTag) := lookupEntry cache rp
    let state : List GitTag × List (String × List GitTag) × Nat × Bool :=
      match cachedHit with
      | some ts => (ts, cache, 0, true)
      | none =>
        if o.repoSupportsChangeEvents = some true then
          (o.parsedTags, setEntry cache rp o.parsedTags, 1, true)
        else (o.parsedTags, cache, 1, false)
    let tags := state.1
    let cacheTry := state.2.1
    let spawns := state.2.2.1
    let aliased := state.2.2.2
    match filter with
    | some f =>
      let res := tags.filter f
      ((if sort then sortFn res else res), cacheTry, spawns)
    | none =>
      if sort then
        (sortFn tags,
         (if aliased then setEntry cacheTry rp (sortFn tags) else cacheTry),
         spawns)
      else (tags, cacheTry, spawns)

/-- Counterexample for C6: `getTags` never consults
`advanced.caching.enabled` — its embedding has no such input at all — so
even with caching disabled a pre-existing tags cache entry is served
(zero git invocations) although git would report different tags, and the
claim "when advanced.caching.enabled is false no result is stored into
or served from any cache" fails at this input. -/
theorem c6_tags_cache_ignores_flag_counterexample :
    getTags ⟨[⟨"v2"⟩], some true⟩ id (some "/r") none false [("/r", [⟨"v1"⟩])]
      = ([⟨"v1"⟩], [("/r", [⟨"v1"⟩])], 0) ∧
    ([(⟨"v1"⟩ : GitTag)] ≠ [⟨"v2"⟩]) := by
  refine ⟨rfl, by decide⟩

/-- C6 (amended): `advanced.caching.enabled = false` disables memoization
for `getBranches` — the result and the invocation count are independent
of the cache contents and the cache is returned unchanged — whereas
`getTags` ignores the flag entirely: it serves a present cache entry
without invoking git, and on a miss it stores the fetched tags whenever
the repository supports change events. -/
theorem c6_caching_flag_amended (o : BranchesOracle) (t : TagsOracle)
    (sortB : List GitBranch → List GitBranch) (sortT : List GitTag → List GitTag)
    (rp : String) (filter : Option (GitBranch → Bool)) (sort : Bool)
    (cacheB : List (String × List GitBranch)) (cacheT : List (String × List GitTag)) :
    ((getBranches false o sortB (some rp) filter sort cacheB).1
        = (getBranches false o sortB (some rp) filter sort []).1 ∧
      (getBranches false o sortB (some rp) filter sort cacheB).2.1 = cacheB ∧
      (getBranches false o sortB (some rp) filter sort cacheB).2.2
        = (getBranches false o sortB (some rp) filter sort []).2.2) ∧
    (∀ ts, lookupEntry cacheT rp = some ts →
      getTags t sortT (some rp) none false cacheT = (ts, cacheT, 0)) ∧
    (lookupEntry cacheT rp = none → t.repoSupportsChangeEvents = some true →
      lookupEntry (getTags t sortT (some rp) none false cacheT).2.1 rp
        = some t.parsedTags ∧
      (getTags t sortT (some rp) none false cacheT).1 = t.parsedTags) := by
  refine ⟨?_, ?_, ?_⟩
  · unfold getBranches
    simp only [false_and, if_false, Bool.false_eq_true]
    cases filter with
    | none =>
      cases sort <;> simp
    | some f =>
      cases sort <;> simp
  · intro ts hts
    unfold getTags
    simp [hts]
  · intro hmiss hsupp
    unfold getTags
    simp [hmiss, hsupp, lookupEntry_setEntry_self]

/-- Witness for C6 (amended): concrete oracles — branches with caching
off ignore a poisoned cache and leave it unchanged; tags are stored on a
miss and then served from the cache. -/
theorem c6_caching_flag_amended_witness :
    ((getBranches false ⟨some [⟨"master", false⟩], none, some true⟩ id (some "/r") none false
        [("/r", [⟨"stale", false⟩])]).1 = [⟨"master", false⟩]) ∧
    ((getBranches false ⟨some [⟨"master", false⟩], none, some true⟩ id (some "/r") none false
        [("/r", [⟨"stale", false⟩])]).2.1 = [("/r", [⟨"stale", false⟩])]) ∧
    (getTags ⟨[⟨"v1"⟩], some true⟩ id (some "/r") none false [("/r", [⟨"v0"⟩])]
      = ([⟨"v0"⟩], [("/r", [⟨"v0"⟩])], 0)) := by
  have h := c6_caching_flag_amended ⟨some [⟨"master", false⟩], none, some true⟩
    ⟨[⟨"v1"⟩], some true⟩ id id "/r" none false
    [("/r", [⟨"stale", false⟩])] [("/r", [⟨"v0"⟩])]
  refine ⟨?_, h.1.2.1, h.2.1 [⟨"v0"⟩] rfl⟩
  rw [h.1.1]
  rfl

/-! ## C1/C2/C10 — document-state caching of blame/diff/log retrievals

Embedding of `GitService.getBlameForFile` (gitService.ts:751-789),
`getBlameForFileCore` (791-830), `getBlameForFileContents` (837-871),
`getBlameForFileContentsCore` (873-913), `getDiffForFile` (1342-1398),
`getDiffForFileCore` (1400-1446), `getLogForFile` (1731-1852) and
`getLogForFileCore` (1854-1922).

Each retrieval has two phases.  The *call phase* runs synchronously from
the cache lookup to the return of the promise: on a miss it invokes the
async core helper — whose body suspends at its first `await` before any
git call — and stores the resulting pending promise in `doc.state`
before returning, so the stored-before-return discipline is what the
call-phase functions compute.  The *resolution phase* models what the
core does when its git invocation finishes (here: the failure path that
replaces the cache entry with the `emptyPromise` sentinel plus
`errorMessage`).  The git invocation a core will perform is charged to
the `spawns` counter at core-invocation time (each core performs exactly
one `git` call — for blame and log only when the file is tracked, since
untracked files short-circuit to `emptyPromise`).

`getLogForFile` additionally consults a "fuzzy" whole-file cache entry on
an exact-key miss; when a `ref` is requested it *awaits* that cached
promise (gitService.ts:1788) — a suspension point in the middle of the
lookup-to-store window, represented by the `suspended` constructor and
the separate resume function. -/

/-- Promise identity.  The module-level `emptyPromise` (gitService.ts:110)
is id `0`; fresh promises take ids from the world's counter. -/
abbrev PromiseId := Nat

/-- The shared `emptyPromise` constant (gitService.ts:110). -/
def emptyPromiseId : PromiseId := 0

/-- A cached result wrapper (`CachedBlame`/`CachedDiff`/`CachedLog` of
`trackers/gitDocumentTracker.ts`): the stored promise and, after a
failure, the error text. -/
structure CachedItem where
  item : PromiseId
  errorMessage : Option String := none
  deriving DecidableEq, Repr

/-- The mutable state a retrieval touches: the tracked document's
`doc.state` (`undefined`, or the key → cached-item map of a
`GitDocumentState`), the fresh-promise counter, and the number of git
subprocess invocations issued so far. -/
structure DocWorld where
  state : Option (List (String × CachedItem))
  nextPid : PromiseId
  spawns : Nat
  deriving DecidableEq, Repr

/-- The cache key of `getBlameForFile`: `'blame'` plus `':sha'` when the
uri carries one. -/
def blameKey (sha : Option String) : String :=
  match sha with
  | some s => "blame" ++ ":" ++ s
  | none => "blame"

/-- The cache key of `getBlameForFileContents`:
`` `blame:${Strings.sha1(contents)}` `` (`Strings.sha1` is not under
src/, so the hash is taken as an input). -/
def blameContentsKey (contentsHash : String) : String :=
  "blame:" ++ contentsHash

/-- The cache key of `getDiffForFile`: `'diff'` plus `':ref1'` and
`':ref2'` when present. -/
def diffKey (ref1 ref2 : Option String) : String :=
  "diff"
    ++ (match ref1 with | some r => ":" ++ r | none => "")
    ++ (match ref2 with | some r => ":" ++ r | none => "")

/-- The shared miss tail of the call phase: create `doc.state` when the
caching block is active (`ensureState`), invoke the core — allocating the
call's promise and charging the single git invocation the core will make
(`coreSpawns`) — and store the pending promise under `key` when state
exists (for the log operation only when no range was given:
`storeWhenState`). -/
def retrievalMissTail (ensureState storeWhenState : Bool) (coreSpawns : Nat)
    (key : String) (w : DocWorld) : PromiseId × DocWorld :=
  let st0 : Option (List (String × CachedItem)) :=
    if ensureState ∧ w.state = none then some [] else w.state
  let p := w.nextPid
  let st1 : Option (List (String × CachedItem)) :=
    match st0 with
    | some st => if storeWhenState then some (setEntry st key ⟨p, none⟩) else some st
    | none => none
  (p, ⟨st1, w.nextPid + 1, w.spawns + coreSpawns⟩)

/-- Embeds `GitService.getBlameForFile` (gitService.ts:751-789), call phase.
`tracked` is the value `isTracked(uri)` resolves to inside
`getBlameForFileCore`: the core spawns `git blame` exactly once iff the
file is tracked. -/
def getBlameForFile (useCaching tracked : Bool) (sha : Option String) (w : DocWorld) :
    PromiseId × DocWorld :=
  let key := blameKey sha
  let hit : Option CachedItem :=
    if useCaching then
      match w.state with
      | some st => lookupEntry st key
      | none => none
    else none
  match hit with
  | some cached => (cached.item, w)
  | none => retrievalMissTail useCaching true (if tracked then 1 else 0) key w

/-- Embeds `GitService.getBlameForFileContents` (gitService.ts:837-871), call
phase; identical to `getBlameForFile` up to the contents-hash key. -/
def getBlameForFileContents (useCaching tracked : Bool) (contentsHash : String)
    (w : DocWorld) : PromiseId × DocWorld :=
  let key := blameContentsKey contentsHash
  let hit : Option CachedItem :=
    if useCaching then
      match w.state with
      | some st => lookupEntry st key
      | none => none
    else none
  match hit with
  | some cached => (cached.item, w)
  | none => retrievalMissTail useCaching true (if tracked then 1 else 0) key w

/-- Embeds `GitService.getDiffForFile` (gitService.ts:1342-1398), call phase.
`getDiffForFileCore` has no tracked-file check: it always issues exactly
one git invocation (`show --diff` or `diff`). -/
def getDiffForFile (useCaching : Bool) (ref1 ref2 : Option String) (w : DocWorld) :
    PromiseId × DocWorld :=
  let key := diffKey ref1 ref2
  let hit : Option CachedItem :=
    if useCaching then
      match w.state with
      | some st => lookupEntry st key
      | none => none
    else none
  match hit with
  | some cached => (cached.item, w)
  | none => retrievalMissTail useCaching true 1 key w

/-- The failure path of `getBlameForFileCore` (gitService.ts:811-829):
with document state present, the cache entry for the key is replaced by
the `emptyPromise` sentinel together with the error text and the caller's
promise resolves to the sentinel's value; without state the promise
resolves to plain `undefined`.  (Both resolve to `undefined`; the first
component distinguishes "empty sentinel from the replaced cache entry"
from "no caching happened".) -/
def resolveBlameFailure (key msg : String) (w : DocWorld) : Option PromiseId × DocWorld :=
  match w.state with
  | some st =>
    (some emptyPromiseId,
     { w with state := some (setEntry st key ⟨emptyPromiseId, some msg⟩) })
  | none => (none, w)

/-- The failure path of `getBlameForFileContentsCore`
(gitService.ts:895-912): identical to `getBlameForFileCore`'s. -/
def resolveBlameContentsFailure (key msg : String) (w : DocWorld) :
    Option PromiseId × DocWorld :=
  match w.state with
  | some st =>
    (some emptyPromiseId,
     { w with state := some (setEntry st key ⟨emptyPromiseId, some msg⟩) })
  | none => (none, w)

/-- The failure path of `getDiffForFileCore` (gitService.ts:1429-1445):
identical to the blame cores'. -/
def resolveDiffFailure (key msg : String) (w : DocWorld) : Option PromiseId × DocWorld :=
  match w.state with
  | some st =>
    (some emptyPromiseId,
     { w with state := some (setEntry st key ⟨emptyPromiseId, some msg⟩) })
  | none => (none, w)

/-- Configuration values `getLogForFile` reads. -/
structure LogFileConfig where
  caching : Bool
  maxListItems : Nat
  followRenames : Bool
  deriving DecidableEq, Repr

/-- The options of `getLogForFile` after the `{ reverse: false,
...options }` defaulting of the source. -/
structure LogFileOptions where
  limit : Option Nat := none
  range : Option LineRange := none
  ref : Option String := none
  renames : Option Bool := none
  reverse : Bool := false
  deriving DecidableEq, Repr

/-- The cache key built by `getLogForFile` (gitService.ts:1749-1765):
`'log'` plus `':ref'`, `':n<limit>'` (only for a truthy, i.e. nonzero,
limit), `':follow'` and `':reverse'`.  `options.limit` defaults to
`advanced.maxListItems || 0` and `options.renames` to
`advanced.fileHistoryFollowsRenames`. -/
def logForFileKey (cfg : LogFileConfig) (opts : LogFileOptions) : String :=
  let renames := opts.renames.getD cfg.followRenames
  let limit := opts.limit.getD cfg.maxListItems
  "log"
    ++ (match opts.ref with | some r => ":" ++ r | none => "")
    ++ (if limit ≠ 0 then ":n" ++ toString limit else "")
    ++ (if renames then ":follow" else "")
    ++ (if opts.reverse then ":reverse" else "")

/-- The whole-file "fuzzy" cache key `getLogForFile` probes on an exact
miss (gitService.ts:1778-1779): the key without ref and limit parts. -/
def logForFileFuzzyKey (cfg : LogFileConfig) (opts : LogFileOptions) : String :=
  let renames := opts.renames.getD cfg.followRenames
  "log"
    ++ (if renames then ":follow" else "")
    ++ (if opts.reverse then ":reverse" else "")

/-- Result of the synchronous prefix of a `getLogForFile` call: thrown
guard error, returned promise, or suspension awaiting the cached
whole-file log promise. -/
inductive LogFileStart where
  | thrown (msg : String)
  | promise (p : PromiseId) (w : DocWorld)
  | suspended (awaiting : PromiseId) (w : DocWorld)
  deriving DecidableEq, Repr

/-- Result of resuming a suspended `getLogForFile` call: either the
partial-log copy returned directly as the call's value, or the promise of
a freshly invoked core. -/
inductive LogFileResume where
  | value (v : GitLog) (w : DocWorld)
  | promise (p : PromiseId) (w : DocWorld)
  deriving DecidableEq, Repr

/-- The partial-log copy `getLogForFile` builds from a cached whole-file
log (gitService.ts:1792-1827): skip entries until the requested ref's
key, keep at most `options.limit` entries (`i > options.limit` filters
the rest), rebuild the author map from the kept commits (the source's
`log.authors.get(c.author)!` presupposes the author exists; absent
authors are skipped), and recompute `limit`/`count`. -/
def cachedLogCopy (cfg : LogFileConfig) (opts : LogFileOptions) (log : GitLog)
    (r : String) : GitLog :=
  let limit := opts.limit.getD cfg.maxListItems
  let entries := (log.commits.dropWhile (fun kv => kv.1 ≠ r)).take limit
  let authors := entries.foldl
    (fun (acc : List (String × GitAuthor)) kv =>
      match lookupEntry log.authors kv.2.author with
      | some a => setEntry acc kv.2.author a
      | none => acc) []
  { log with
    limit := some limit
    count := entries.length
    commits := entries
    authors := authors }

/-- Embeds `GitService.getLogForFile` (gitService.ts:1731-1852), synchronous
prefix: the repoPath-equals-fileName guard throws; with caching on and no
range, an exact-key hit returns the cached promise, an exact miss probes
the fuzzy whole-file key (the `options.ref !== undefined ||
options.limit !== undefined` test at 1776 is always true since
`options.limit` was defaulted to a number) — returning its promise
directly when no ref was asked, and *awaiting* it when one was; otherwise
the miss tail invokes the core and stores the pending promise.
`normalizePath` stands for `Strings.normalizePath` (`system/string.ts` is
not under src/). -/
def getLogForFileStart (cfg : LogFileConfig) (normalizePath : String → String)
    (repoPath : Option String) (fileName : String) (opts : LogFileOptions)
    (tracked : Bool) (w : DocWorld) : LogFileStart :=
  if repoPath = some (normalizePath fileName) then
    .thrown ("File name cannot match the repository path; fileName=" ++ fileName)
  else
    let key := logForFileKey cfg opts
    let coreSpawns := if tracked then 1 else 0
    if cfg.caching ∧ opts.range = none then
      match w.state with
      | some st =>
        (match lookupEntry st key with
         | some cachedLog => .promise cachedLog.item w
         | none =>
           match lookupEntry st (logForFileFuzzyKey cfg opts) with
           | some cachedLog =>
             (match opts.ref with
              | none => .promise cachedLog.item w
              | some _ => .suspended cachedLog.item w)
           | none =>
             let r := retrievalMissTail true true coreSpawns key w
             .promise r.1 r.2)
      | none =>
        let r := retrievalMissTail true true coreSpawns key w
        .promise r.1 r.2
    else
      let r := retrievalMissTail false (opts.range = none) coreSpawns key w
      .promise r.1 r.2

/-- Resuming a suspended `getLogForFile` call once the awaited whole-file
promise resolves (gitService.ts:1788-1828): when it resolved to a
complete log containing the requested ref, the partial-log copy is
returned directly (no git call, nothing stored); otherwise the call falls
through to the miss tail — invoking its own core and storing (or
overwriting) the exact-key entry in the *current* document state. -/
def getLogForFileResume (cfg : LogFileConfig) (opts : LogFileOptions) (tracked : Bool)
    (resolved : Option GitLog) (w : DocWorld) : LogFileResume :=
  let fallThrough : LogFileResume :=
    let r := retrievalMissTail true true (if tracked then 1 else 0)
      (logForFileKey cfg opts) w
    .promise r.1 r.2
  match resolved, opts.ref with
  | some log, some r =>
    if log.hasMore = false ∧ log.commits.any (fun kv => kv.1 == r) then
      .value (cachedLogCopy cfg opts log r) w
    else fallThrough
  | _, _ => fallThrough

/-- The git+parser outcome of a `getLogForFileCore` run on a tracked
file. -/
inductive CoreOutcome where
  | success (log : Option GitLog)
  | failure (msg : String)
  deriving DecidableEq, Repr

/-- Embeds `GitService.getLogForFileCore` (gitService.ts:1854-1922) as
resolution semantics: the value the core's promise resolves to, and the
cache effect.  An untracked file resolves to the `emptyPromise` sentinel
(`undefined`) without any git call; a failure replaces the cache entry
with the empty sentinel plus `errorMessage` only when document state
exists, no range was given and `reverse` is off — otherwise it resolves
to plain `undefined` leaving the state alone.  The core contains no
`throw`.  (The single git invocation of a tracked run was charged when
the core was invoked, by `retrievalMissTail`.) -/
def getLogForFileCore (tracked : Bool) (range : Option LineRange) (reverse : Bool)
    (key : String) (outcome : CoreOutcome) (w : DocWorld) : Option GitLog × DocWorld :=
  if tracked = false then (none, w)
  else
    match outcome with
    | .success log => (log, w)
    | .failure msg =>
      match w.state with
      | some st =>
        if range = none ∧ reverse = false then
          (none, { w with state := some (setEntry st key ⟨emptyPromiseId, some msg⟩) })
        else (none, w)
      | none => (none, w)

/-- Runs `n` successive call phases of the same operation (concurrent callers
arriving before any resolution: the call phases execute back to back on
the single-threaded event loop). -/
def iterCalls (f : DocWorld → PromiseId × DocWorld) :
    Nat → DocWorld → List PromiseId × DocWorld
  | 0, w => ([], w)
  | n + 1, w =>
    let r := f w
    let rest := iterCalls f n r.2
    (r.1 :: rest.1, rest.2)

theorem iterCalls_fixpoint (f : DocWorld → PromiseId × DocWorld) (p : PromiseId)
    (w : DocWorld) (hfix : f w = (p, w)) (n : Nat) :
    iterCalls f n w = (List.replicate n p, w) := by
  induction n with
  | zero => rfl
  | succ m ih => simp [iterCalls, hfix, ih, List.replicate_succ]

theorem getBlameForFile_miss (sha : Option String) (tracked : Bool) (w : DocWorld)
    (hfresh : ∀ st, w.state = some st → lookupEntry st (blameKey sha) = none) :
    getBlameForFile true tracked sha w =
      (w.nextPid,
       ⟨some (setEntry (w.state.getD []) (blameKey sha) ⟨w.nextPid, none⟩),
        w.nextPid + 1, w.spawns + (if tracked then 1 else 0)⟩) := by
  unfold getBlameForFile retrievalMissTail
  cases hst : w.state with
  | none => simp [hst]
  | some st => simp [hst, hfresh st hst]

theorem getBlameForFile_hit (sha : Option String) (tracked : Bool) (w : DocWorld)
    (st : List (String × CachedItem)) (ci : CachedItem)
    (hst : w.state = some st) (hhit : lookupEntry st (blameKey sha) = some ci) :
    getBlameForFile true tracked sha w = (ci.item, w) := by
  unfold getBlameForFile
  simp [hst, hhit]

theorem getBlameForFileContents_miss (hash : String) (tracked : Bool) (w : DocWorld)
    (hfresh : ∀ st, w.state = some st → lookupEntry st (blameContentsKey hash) = none) :
    getBlameForFileContents true tracked hash w =
      (w.nextPid,
       ⟨some (setEntry (w.state.getD []) (blameContentsKey hash) ⟨w.nextPid, none⟩),
        w.nextPid + 1, w.spawns + (if tracked then 1 else 0)⟩) := by
  unfold getBlameForFileContents retrievalMissTail
  cases hst : w.state with
  | none => simp [hst]
  | some st => simp [hst, hfresh st hst]

theorem getBlameForFileContents_hit (hash : String) (tracked : Bool) (w : DocWorld)
    (st : List (String × CachedItem)) (ci : CachedItem)
    (hst : w.state = some st) (hhit : lookupEntry st (blameContentsKey hash) = some ci) :
    getBlameForFileContents true tracked hash w = (ci.item, w) := by
  unfold getBlameForFileContents
  simp [hst, hhit]

theorem getDiffForFile_miss (ref1 ref2 : Option String) (w : DocWorld)
    (hfresh : ∀ st, w.state = some st → lookupEntry st (diffKey ref1 ref2) = none) :
    getDiffForFile true ref1 ref2 w =
      (w.nextPid,
       ⟨some (setEntry (w.state.getD []) (diffKey ref1 ref2) ⟨w.nextPid, none⟩),
        w.nextPid + 1, w.spawns + 1⟩) := by
  unfold getDiffForFile retrievalMissTail
  cases hst : w.state with
  | none => simp [hst]
  | some st => simp [hst, hfresh st hst]

theorem getDiffForFile_hit (ref1 ref2 : Option String) (w : DocWorld)
    (st : List (String × CachedItem)) (ci : CachedItem)
    (hst : w.state = some st) (hhit : lookupEntry st (diffKey ref1 ref2) = some ci) :
    getDiffForFile true ref1 ref2 w = (ci.item, w) := by
  unfold getDiffForFile
  simp [hst, hhit]

theorem getLogForFileStart_miss (cfg : LogFileConfig) (normalizePath : String → String)
    (rp : Option String) (fn : String) (opts : LogFileOptions) (w : DocWorld)
    (hguard : ¬rp = some (normalizePath fn))
    (hcache : cfg.caching = true) (hrange : opts.range = none)
    (hfresh : ∀ st, w.state = some st → lookupEntry st (logForFileKey cfg opts) = none)
    (hfuzzy : ∀ st, w.state = some st →
      lookupEntry st (logForFileFuzzyKey cfg opts) = none) :
    getLogForFileStart cfg normalizePath rp fn opts true w =
      .promise w.nextPid
        ⟨some (setEntry (w.state.getD []) (logForFileKey cfg opts) ⟨w.nextPid, none⟩),
         w.nextPid + 1, w.spawns + 1⟩ := by
  unfold getLogForFileStart retrievalMissTail
  cases hst : w.state with
  | none => simp [hst, hguard, hcache, hrange]
  | some st => simp [hst, hguard, hcache, hrange, hfresh st hst, hfuzzy st hst]

theorem getLogForFileStart_hit (cfg : LogFileConfig) (normalizePath : String → String)
    (rp : Option String) (fn : String) (opts : LogFileOptions) (w : DocWorld)
    (st : List (String × CachedItem)) (ci : CachedItem)
    (hguard : ¬rp = some (normalizePath fn))
    (hcache : cfg.caching = true) (hrange : opts.range = none)
    (hst : w.state = some st)
    (hhit : lookupEntry st (logForFileKey cfg opts) = some ci) :
    getLogForFileStart cfg normalizePath rp fn opts true w = .promise ci.item w := by
  unfold getLogForFileStart
  simp [hst, hguard, hcache, hrange, hhit]

/-- C1 (amended): with caching enabled, a cache hit returns the stored
(possibly pending) promise without a git invocation, and a miss stores
the in-flight promise before returning — so for `getBlameForFile`,
`getBlameForFileContents` and `getDiffForFile`, any number of calls for
one cache key issued before the first resolves cause exactly one git
invocation and return the identical promise.  For `getLogForFile` the
same holds provided the call does not take the partial-log fallback: when
the document state contains neither the exact key nor the whole-file
fuzzy key (and no range is given), each call is atomic from lookup to
store; the fuzzy-key `await` otherwise opens a window in which concurrent
same-key callers each spawn their own core (see the counterexample). -/
theorem c1_cache_coalescing_amended (w : DocWorld) (n : Nat) :
    (∀ sha, (∀ st, w.state = some st → lookupEntry st (blameKey sha) = none) →
      (iterCalls (getBlameForFile true true sha) (n + 1) w).1
          = List.replicate (n + 1) w.nextPid ∧
      (iterCalls (getBlameForFile true true sha) (n + 1) w).2.spawns = w.spawns + 1) ∧
    (∀ hash, (∀ st, w.state = some st → lookupEntry st (blameContentsKey hash) = none) →
      (iterCalls (getBlameForFileContents true true hash) (n + 1) w).1
          = List.replicate (n + 1) w.nextPid ∧
      (iterCalls (getBlameForFileContents true true hash) (n + 1) w).2.spawns
          = w.spawns + 1) ∧
    (∀ ref1 ref2, (∀ st, w.state = some st → lookupEntry st (diffKey ref1 ref2) = none) →
      (iterCalls (getDiffForFile true ref1 ref2) (n + 1) w).1
          = List.replicate (n + 1) w.nextPid ∧
      (iterCalls (getDiffForFile true ref1 ref2) (n + 1) w).2.spawns = w.spawns + 1) ∧
    (∀ cfg normalizePath rp fn opts, ¬rp = some (normalizePath fn) →
      cfg.caching = true → opts.range = none →
      (∀ st, w.state = some st → lookupEntry st (logForFileKey cfg opts) = none) →
      (∀ st, w.state = some st → lookupEntry st (logForFileFuzzyKey cfg opts) = none) →
      (iterCalls (fun w' =>
          match getLogForFileStart cfg normalizePath rp fn opts true w' with
          | .promise p w'' => (p, w'')
          | .thrown _ => (0, w')
          | .suspended _ _ => (0, w')) (n + 1) w).1
        = List.replicate (n + 1) w.nextPid ∧
      (iterCalls (fun w' =>
          match getLogForFileStart cfg normalizePath rp fn opts true w' with
          | .promise p w'' => (p, w'')
          | .thrown _ => (0, w')
          | .suspended _ _ => (0, w')) (n + 1) w).2.spawns = w.spawns + 1) := by
  refine ⟨?_, ?_, ?_, ?_⟩
  · intro sha hfresh
    have hmiss := getBlameForFile_miss sha true w hfresh
    set w1 : DocWorld :=
      ⟨some (setEntry (w.state.getD []) (blameKey sha) ⟨w.nextPid, none⟩),
       w.nextPid + 1, w.spawns + (if true then 1 else 0)⟩ with hw1
    have hfix : getBlameForFile true true sha w1 = (w.nextPid, w1) :=
      getBlameForFile_hit sha true w1 _ ⟨w.nextPid, none⟩ rfl
        (lookupEntry_setEntry_self _ _ _)
    have hiter := iterCalls_fixpoint (getBlameForFile true true sha) w.nextPid w1 hfix n
    have hall : iterCalls (getBlameForFile true true sha) (n + 1) w
        = (List.replicate (n + 1) w.nextPid, w1) := by
      simp only [iterCalls]
      rw [hmiss]
      simp only [← hw1, hiter, List.replicate_succ]
    rw [hall]
    exact ⟨rfl, by simp [hw1]⟩
  · intro hash hfresh
    have hmiss := getBlameForFileContents_miss hash true w hfresh
    set w1 : DocWorld :=
      ⟨some (setEntry (w.state.getD []) (blameContentsKey hash) ⟨w.nextPid, none⟩),
       w.nextPid + 1, w.spawns + (if true then 1 else 0)⟩ with hw1
    have hfix : getBlameForFileContents true true hash w1 = (w.nextPid, w1) :=
      getBlameForFileContents_hit hash true w1 _ ⟨w.nextPid, none⟩ rfl
        (lookupEntry_setEntry_self _ _ _)
    have hiter := iterCalls_fixpoint (getBlameForFileContents true true hash)
      w.nextPid w1 hfix n
    have hall : iterCalls (getBlameForFileContents true true hash) (n + 1) w
        = (List.replicate (n + 1) w.nextPid, w1) := by
      simp only [iterCalls]
      rw [hmiss]
      simp only [← hw1, hiter, List.replicate_succ]
    rw [hall]
    exact ⟨rfl, by simp [hw1]⟩
  · intro ref1 ref2 hfresh
    have hmiss := getDiffForFile_miss ref1 ref2 w hfresh
    set w1 : DocWorld :=
      ⟨some (setEntry (w.state.getD []) (diffKey ref1 ref2) ⟨w.nextPid, none⟩),
       w.nextPid + 1, w.spawns + 1⟩ with hw1
    have hfix : getDiffForFile true ref1 ref2 w1 = (w.nextPid, w1) :=
      getDiffForFile_hit ref1 ref2 w1 _ ⟨w.nextPid, none⟩ rfl
        (lookupEntry_setEntry_self _ _ _)
    have hiter := iterCalls_fixpoint (getDiffForFile true ref1 ref2) w.nextPid w1 hfix n
    have hall : iterCalls (getDiffForFile true ref1 ref2) (n + 1) w
        = (List.replicate (n + 1) w.nextPid, w1) := by
      simp only [iterCalls]
      rw [hmiss]
      simp only [← hw1, hiter, List.replicate_succ]
    rw [hall]
    exact ⟨rfl, by simp [hw1]⟩
  · intro cfg normalizePath rp fn opts hguard hcache hrange hfresh hfuzzy
    have hmiss := getLogForFileStart_miss cfg normalizePath rp fn opts w
      hguard hcache hrange hfresh hfuzzy
    set w1 : DocWorld :=
      ⟨some (setEntry (w.state.getD []) (logForFileKey cfg opts) ⟨w.nextPid, none⟩),
       w.nextPid + 1, w.spawns + 1⟩ with hw1
    set f : DocWorld → PromiseId × DocWorld := fun w' =>
      match getLogForFileStart cfg normalizePath rp fn opts true w' with
      | .promise p w'' => (p, w'')
      | .thrown _ => (0, w')
      | .suspended _ _ => (0, w') with hf
    have hstep : f w = (w.nextPid, w1) := by
      rw [hf]
      simp only [hmiss, ← hw1]
    have hfixstart : getLogForFileStart cfg normalizePath rp fn opts true w1
        = .promise w.nextPid w1 := by
      have := getLogForFileStart_hit cfg normalizePath rp fn opts w1 _
        ⟨w.nextPid, none⟩ hguard hcache hrange rfl (lookupEntry_setEntry_self _ _ _)
      simpa using this
    have hfix : f w1 = (w.nextPid, w1) := by
      rw [hf]
      simp only [hfixstart]
    have hiter := iterCalls_fixpoint f w.nextPid w1 hfix n
    have hall : iterCalls f (n + 1) w = (List.replicate (n + 1) w.nextPid, w1) := by
      simp only [iterCalls]
      rw [hstep]
      simp only [hiter, List.replicate_succ]
    rw [hall]
    exact ⟨rfl, by simp [hw1]⟩

/-- Witness for C1 (amended): two back-to-back uncached blame calls on a
fresh document share one promise and cause one git invocation; same for
diff and for a fuzzy-free `getLogForFile`. -/
theorem c1_cache_coalescing_amended_witness :
    (iterCalls (getBlameForFile true true none) 2 ⟨none, 1, 0⟩).1 = [1, 1] ∧
    (iterCalls (getBlameForFile true true none) 2 ⟨none, 1, 0⟩).2.spawns = 1 ∧
    (iterCalls (getDiffForFile true none none) 2 ⟨none, 1, 0⟩).1 = [1, 1] ∧
    (iterCalls (fun w' =>
        match getLogForFileStart ⟨true, 0, false⟩ id (some "/r") "/r/f.txt"
            ⟨none, none, none, none, false⟩ true w' with
        | .promise p w'' => (p, w'')
        | .thrown _ => (0, w')
        | .suspended _ _ => (0, w')) 2 ⟨none, 1, 0⟩).2.spawns = 1 := by
  have hb := (c1_cache_coalescing_amended ⟨none, 1, 0⟩ 1).1 none
    (fun st hst => by cases hst)
  have hd := (c1_cache_coalescing_amended ⟨none, 1, 0⟩ 1).2.2.1 none none
    (fun st hst => by cases hst)
  have hl := (c1_cache_coalescing_amended ⟨none, 1, 0⟩ 1).2.2.2
    ⟨true, 0, false⟩ id (some "/r") "/r/f.txt" ⟨none, none, none, none, false⟩
    (by decide) rfl rfl (fun st hst => by cases hst) (fun st hst => by cases hst)
  exact ⟨hb.1, hb.2, hd.1, hl.2⟩

/-- Counterexample for C1: the partial-log fallback of `getLogForFile`
awaits the cached whole-file promise *before* storing anything under the
requested exact key.  Trace: call A caches the whole-file log (key
`log`, promise 1, one git call); calls B and C both request ref `R`
(key `log:R`), miss it, find the fuzzy `log` entry and suspend on it;
when it resolves to `undefined` each falls through to its own core —
two further git invocations (spawns 1 → 3) and two distinct promises
(2 and 3) for the same cache key, refuting "exactly one subprocess
invocation and all callers observe the identical result". -/
theorem c1_cache_coalescing_counterexample :
    getLogForFileStart ⟨true, 0, false⟩ id (some "/r") "/r/f.txt"
        ⟨none, none, none, none, false⟩ true ⟨none, 1, 0⟩
      = .promise 1 ⟨some [("log", ⟨1, none⟩)], 2, 1⟩ ∧
    getLogForFileStart ⟨true, 0, false⟩ id (some "/r") "/r/f.txt"
        ⟨none, none, some "R", none, false⟩ true ⟨some [("log", ⟨1, none⟩)], 2, 1⟩
      = .suspended 1 ⟨some [("log", ⟨1, none⟩)], 2, 1⟩ ∧
    getLogForFileStart ⟨true, 0, false⟩ id (some "/r") "/r/f.txt"
        ⟨none, none, some "R", none, false⟩ true ⟨some [("log", ⟨1, none⟩)], 2, 1⟩
      = .suspended 1 ⟨some [("log", ⟨1, none⟩)], 2, 1⟩ ∧
    getLogForFileResume ⟨true, 0, false⟩ ⟨none, none, some "R", none, false⟩ true none
        ⟨some [("log", ⟨1, none⟩)], 2, 1⟩
      = .promise 2 ⟨some [("log", ⟨1, none⟩), ("log:R", ⟨2, none⟩)], 3, 2⟩ ∧
    getLogForFileResume ⟨true, 0, false⟩ ⟨none, none, some "R", none, false⟩ true none
        ⟨some [("log", ⟨1, none⟩), ("log:R", ⟨2, none⟩)], 3, 2⟩
      = .promise 3 ⟨some [("log", ⟨1, none⟩), ("log:R", ⟨3, none⟩)], 4, 3⟩ ∧
    (2 : PromiseId) ≠ 3 := by
  refine ⟨rfl, rfl, rfl, rfl, rfl, by decide⟩

/-- Counterexample for C2: a cached *reverse* file-log retrieval that
fails, with document state present, does not replace its cache entry —
`getLogForFileCore` guards its sentinel-caching on `!options.reverse` —
so no `errorMessage` is ever exposed for it. -/
theorem c2_reverse_log_failure_counterexample :
    getLogForFileCore true none true "log:reverse" (.failure "fatal: bad revision")
        ⟨some [("log:reverse", ⟨5, none⟩)], 6, 1⟩
      = (none, ⟨some [("log:reverse", ⟨5, none⟩)], 6, 1⟩) ∧
    (⟨5, none⟩ : CachedItem).errorMessage = none ∧
    (5 : PromiseId) ≠ emptyPromiseId := by
  refine ⟨rfl, rfl, by decide⟩

/-- C2 (amended): when a cached blame, blame-for-contents or diff
retrieval fails with document state present — and a cached file-log
retrieval fails with state present, no range and `reverse` off — the
cache entry for the key is replaced by the resolved `emptyPromise`
sentinel together with the error text, and a second identical request
returns the very sentinel promise from the cache without touching the
world (hence no second git invocation), with the original `errorMessage`
inspectable on the entry.  (Reverse file-logs are the exception the
counterexample exhibits.) -/
theorem c2_failure_caches_empty_sentinel_amended
    (w : DocWorld) (st : List (String × CachedItem)) (hst : w.state = some st)
    (msg : String) (tracked : Bool) :
    (∀ sha,
      resolveBlameFailure (blameKey sha) msg w
        = (some emptyPromiseId,
           { w with state := some (setEntry st (blameKey sha) ⟨emptyPromiseId, some msg⟩) }) ∧
      getBlameForFile true tracked sha
          { w with state := some (setEntry st (blameKey sha) ⟨emptyPromiseId, some msg⟩) }
        = (emptyPromiseId,
           { w with state := some (setEntry st (blameKey sha) ⟨emptyPromiseId, some msg⟩) }) ∧
      lookupEntry (setEntry st (blameKey sha) ⟨emptyPromiseId, some msg⟩) (blameKey sha)
        = some ⟨emptyPromiseId, some msg⟩) ∧
    (∀ hash,
      resolveBlameContentsFailure (blameContentsKey hash) msg w
        = (some emptyPromiseId,
           { w with state := some (setEntry st (blameContentsKey hash) ⟨emptyPromiseId, some msg⟩) }) ∧
      getBlameForFileContents true tracked hash
          { w with state := some (setEntry st (blameContentsKey hash) ⟨emptyPromiseId, some msg⟩) }
        = (emptyPromiseId,
           { w with state := some (setEntry st (blameContentsKey hash) ⟨emptyPromiseId, some msg⟩) })) ∧
    (∀ ref1 ref2,
      resolveDiffFailure (diffKey ref1 ref2) msg w
        = (some emptyPromiseId,
           { w with state := some (setEntry st (diffKey ref1 ref2) ⟨emptyPromiseId, some msg⟩) }) ∧
      getDiffForFile true ref1 ref2
          { w with state := some (setEntry st (diffKey ref1 ref2) ⟨emptyPromiseId, some msg⟩) }
        = (emptyPromiseId,
           { w with state := some (setEntry st (diffKey ref1 ref2) ⟨emptyPromiseId, some msg⟩) })) ∧
    (∀ cfg opts (normalizePath : String → String) (rp : Option String) (fn : String),
      cfg.caching = true → opts.range = none → opts.reverse = false →
      ¬rp = some (normalizePath fn) →
      getLogForFileCore true opts.range opts.reverse (logForFileKey cfg opts)
          (.failure msg) w
        = (none,
           { w with state := some (setEntry st (logForFileKey cfg opts) ⟨emptyPromiseId, some msg⟩) }) ∧
      getLogForFileStart cfg normalizePath rp fn opts tracked
          { w with state := some (setEntry st (logForFileKey cfg opts) ⟨emptyPromiseId, some msg⟩) }
        = .promise emptyPromiseId
            { w with state := some (setEntry st (logForFileKey cfg opts) ⟨emptyPromiseId, some msg⟩) }) := by
  refine ⟨?_, ?_, ?_, ?_⟩
  · intro sha
    refine ⟨?_, ?_, lookupEntry_setEntry_self _ _ _⟩
    · unfold resolveBlameFailure
      rw [hst]
    · cases tracked with
      | true =>
        exact getBlameForFile_hit sha true _ _ ⟨emptyPromiseId, some msg⟩ rfl
          (lookupEntry_setEntry_self _ _ _)
      | false =>
        exact getBlameForFile_hit sha false _ _ ⟨emptyPromiseId, some msg⟩ rfl
          (lookupEntry_setEntry_self _ _ _)
  · intro hash
    refine ⟨?_, ?_⟩
    · unfold resolveBlameContentsFailure
      rw [hst]
    · cases tracked with
      | true =>
        exact getBlameForFileContents_hit hash true _ _ ⟨emptyPromiseId, some msg⟩ rfl
          (lookupEntry_setEntry_self _ _ _)
      | false =>
        exact getBlameForFileContents_hit hash false _ _ ⟨emptyPromiseId, some msg⟩ rfl
          (lookupEntry_setEntry_self _ _ _)
  · intro ref1 ref2
    refine ⟨?_, ?_⟩
    · unfold resolveDiffFailure
      rw [hst]
    · exact getDiffForFile_hit ref1 ref2 _ _ ⟨emptyPromiseId, some msg⟩ rfl
        (lookupEntry_setEntry_self _ _ _)
  · intro cfg opts normalizePath rp fn hcache hrange hrev hguard
    refine ⟨?_, ?_⟩
    · unfold getLogForFileCore
      rw [hst]
      simp [hrange, hrev]
    · have hhit := getLogForFileStart_hit cfg normalizePath rp fn opts
        { w with state := some (setEntry st (logForFileKey cfg opts) ⟨emptyPromiseId, some msg⟩) }
        _ ⟨emptyPromiseId, some msg⟩ hguard hcache hrange rfl
        (lookupEntry_setEntry_self _ _ _)
      -- the hit lemma is stated for `tracked = true`; re-derive for any
      -- tracked flag (the hit path never reads it)
      cases tracked with
      | true => exact hhit
      | false =>
        unfold getLogForFileStart
        simp [hguard, hcache, hrange, lookupEntry_setEntry_self]

/-- Witness for C2 (amended): a concrete failing blame on a document with
state caches the sentinel with the error text; the repeated request
returns the sentinel unchanged. -/
theorem c2_failure_caches_empty_sentinel_amended_witness :
    resolveBlameFailure "blame" "boom" ⟨some [], 1, 0⟩
      = (some emptyPromiseId, ⟨some [("blame", ⟨emptyPromiseId, some "boom"⟩)], 1, 0⟩) ∧
    getBlameForFile true true none ⟨some [("blame", ⟨emptyPromiseId, some "boom"⟩)], 1, 0⟩
      = (emptyPromiseId, ⟨some [("blame", ⟨emptyPromiseId, some "boom"⟩)], 1, 0⟩) := by
  have h := (c2_failure_caches_empty_sentinel_amended ⟨some [], 1, 0⟩ [] rfl "boom" true).1 none
  exact ⟨h.1, h.2.1⟩

/-- C10: `getLogForFile` throws exactly when `repoPath` is defined and
equals the normalized `fileName` (the guard at gitService.ts:1737-1739);
for every other input the synchronous prefix never throws, and a merely
untracked file makes the core resolve to the `undefined` empty sentinel
with no cache change and no git invocation rather than raising. -/
theorem c10_log_for_file_guard_and_untracked (cfg : LogFileConfig)
    (normalizePath : String → String) (rp : Option String) (fn : String)
    (opts : LogFileOptions) (tracked : Bool) (w : DocWorld) :
    (rp = some (normalizePath fn) →
      getLogForFileStart cfg normalizePath rp fn opts tracked w
        = .thrown ("File name cannot match the repository path; fileName=" ++ fn)) ∧
    (¬rp = some (normalizePath fn) →
      ∀ msg, getLogForFileStart cfg normalizePath rp fn opts tracked w ≠ .thrown msg) ∧
    (∀ range reverse key outcome,
      getLogForFileCore false range reverse key outcome w = (none, w)) := by
  refine ⟨?_, ?_, ?_⟩
  · intro hguard
    unfold getLogForFileStart
    rw [if_pos hguard]
  · intro hguard msg
    unfold getLogForFileStart
    rw [if_neg hguard]
    by_cases h : cfg.caching ∧ opts.range = none
    · rw [if_pos h]
      cases hst : w.state with
      | none => simp [retrievalMissTail]
      | some st =>
        cases hk : lookupEntry st (logForFileKey cfg opts) with
        | some ci => simp [hk]
        | none =>
          cases hfz : lookupEntry st (logForFileFuzzyKey cfg opts) with
          | some ci => cases opts.ref <;> simp [hk, hfz]
          | none => simp [hk, hfz, retrievalMissTail]
    · rw [if_neg h]
      simp [retrievalMissTail]
  · intro range reverse key outcome
    unfold getLogForFileCore
    rfl

/-! ## C3 — deleted-or-missing sentinel in next/previous navigation

Embedding of `GitService.getNextUri` (gitService.ts:2050-2100) and of the
sentinel guards of `GitService.getPreviousDiffUris` (2102-2177),
`getPreviousLineDiffUris` (2179-2297) and `getPreviousUri` (2299-2353).

The three previous-navigation operations open with
`if (ref === GitService.deletedOrMissingSha) return undefined;` — their
remaining bodies (status probes, blame lookups, git log calls) are
abstracted as an arbitrary continuation `rest` paired with its git
invocation count, since the guard precedes all of it; the theorems hold
for *every* such continuation.  `getNextUri`, by contrast, has no such
guard: it special-cases the sentinel by clearing the ref and querying the
first commit that Added the file. -/

/-- Modelled from the spec: the three sentinel pseudo-shas
("working-tree, staged-index, and deleted states"; `src/git/git.ts` is
not among the provided sources). -/
def uncommittedSha : String := "0000000000000000000000000000000000000000"

/-- Modelled from the spec: the staged-index sentinel sha. -/
def uncommittedStagedSha : String := uncommittedSha ++ ":"

/-- Modelled from the spec: the deleted-or-missing sentinel sha
(`GitService.deletedOrMissingSha`, gitService.ts:3166). -/
def deletedOrMissingSha : String := uncommittedSha ++ "-"

/-- Modelled from the spec: `Git.isUncommittedStaged`. -/
def isUncommittedStaged (ref : String) : Bool :=
  ref = uncommittedStagedSha

/-- The fields of a `GitUri` the navigation operations produce
(`GitUri.fromFile` resolves paths through the OS path library; here the
strings are carried as given). -/
structure NavUri where
  fileName : String
  repoPath : String
  sha : Option String := none
  deriving DecidableEq, Repr

/-- Embeds `GitUri.fromFile(fileName, repoPath, ref)` (gitUri.ts:235-247): a
null or empty ref yields a plain working-tree uri. -/
def GitUriFromFile (fileName repoPath : String) (ref : Option String) : NavUri :=
  match ref with
  | none => ⟨fileName, repoPath, none⟩
  | some r => if r.length = 0 then ⟨fileName, repoPath, none⟩ else ⟨fileName, repoPath, some r⟩

/-- JS `a || b` on an optional string: `undefined` and `''` are falsy. -/
def jsOr (a : Option String) (b : String) : String :=
  match a with
  | some s => if s = "" then b else s
  | none => b

/-- A current/previous (or current/next) uri pair as the diff-navigation
operations return it. -/
structure NavUriPair where
  current : NavUri
  previous : Option NavUri
  deriving DecidableEq, Repr

/-- Oracle for the git+parser calls of `getNextUri`: `logFileSimple` is
`Git.log__file` in simple mode composed with `GitLogParser.parseSimple`
(`none` for empty data; arguments are the effective ref, diff filters and
limit), and `logFileSimpleRenamed` is the rename follow-up query
(`Git.log__file(repoPath, '.', nextRef, { filters: ['R'], limit: 1 })`
composed with `GitLogParser.parseSimpleRenamed`).  Neither `git.ts` nor
the parsers are under src/. -/
structure NextUriOracle where
  logFileSimple : Option String → List String → Nat →
    Option (Option String × Option String × Option String)
  logFileSimpleRenamed : Option String → Option (Option String × Option String)

/-- The body of `getNextUri` after the guards (gitService.ts:2068-2099):
query the file's forward history, follow a deletion through a possible
rename, and build the resulting uri.  The second component counts git
invocations. -/
def getNextUriBody (o : NextUriOracle) (repoPath fileName : String)
    (ref : Option String) (filters : List String) (skip : Nat) : Option NavUri × Nat :=
  match o.logFileSimple ref filters (skip + 1) with
  | none => (none, 1)
  | some (nextRef, file, status) =>
    if status = some "D" then
      match o.logFileSimpleRenamed nextRef with
      | none => (some (GitUriFromFile (jsOr file fileName) repoPath nextRef), 2)
      | some (nextRenamedRef, renamedFile) =>
        (some (GitUriFromFile (jsOr renamedFile (jsOr file fileName)) repoPath
          (some (jsOr nextRenamedRef (jsOr nextRef deletedOrMissingSha)))), 2)
    else (some (GitUriFromFile (jsOr file fileName) repoPath nextRef), 1)

/-- Embeds `GitService.getNextUri` (gitService.ts:2050-2100): `undefined`, empty
and staged refs have no next commit; the deleted-or-missing sentinel is
rewritten to "no ref, filter on Added" — the subprocess *is* invoked for
it.  `fileName` is `GitUri.relativeTo(uri, repoPath)` applied by the
caller. -/
def getNextUri (o : NextUriOracle) (repoPath fileName : String)
    (ref : Option String) (skip : Nat) : Option NavUri × Nat :=
  match ref with
  | none => (none, 0)
  | some r =>
    if r.length = 0 then (none, 0)
    else if isUncommittedStaged r then (none, 0)
    else if r = deletedOrMissingSha then
      getNextUriBody o repoPath fileName none ["A"] skip
    else
      getNextUriBody o repoPath fileName (some r) [] skip

/-- Embeds `GitService.getPreviousUri` (gitService.ts:2299-2353): sentinel guard
first; the rest of the body is an arbitrary continuation with its git
invocation count. -/
def getPreviousUri (ref : Option String) (rest : Option NavUri × Nat) :
    Option NavUri × Nat :=
  if ref = some deletedOrMissingSha then (none, 0) else rest

/-- Embeds `GitService.getPreviousDiffUris` (gitService.ts:2102-2177): sentinel
guard first; the rest of the body is an arbitrary continuation. -/
def getPreviousDiffUris (ref : Option String) (rest : Option NavUriPair × Nat) :
    Option NavUriPair × Nat :=
  if ref = some deletedOrMissingSha then (none, 0) else rest

/-- Embeds `GitService.getPreviousLineDiffUris` (gitService.ts:2179-2297):
sentinel guard first; the rest of the body is an arbitrary
continuation. -/
def getPreviousLineDiffUris (ref : Option String) (rest : Option NavUriPair × Nat) :
    Option NavUriPair × Nat :=
  if ref = some deletedOrMissingSha then (none, 0) else rest

/-- Counterexample for C3: `getNextUri` called with the deleted-or-missing
sentinel does *not* resolve to `undefined` without a subprocess call — it
issues one git invocation (ref cleared, filter `A`) and, when git reports
an added commit, returns its uri. -/
theorem c3_sentinel_short_circuit_counterexample :
    getNextUri
        ⟨fun _ _ _ => some (some "abc", some "f.txt", some "A"), fun _ => none⟩
        "/r" "f.txt" (some deletedOrMissingSha) 0
      = (some ⟨"f.txt", "/r", some "abc"⟩, 1) ∧
    (some (⟨"f.txt", "/r", some "abc"⟩ : NavUri) ≠ none) := by
  refine ⟨rfl, by decide⟩

/-- C3 (amended): the deleted-or-missing sentinel short-circuits the
previous-navigation operations — `getPreviousUri`, `getPreviousDiffUris`,
`getPreviousLineDiffUris` resolve to `undefined` with zero git
invocations, whatever the rest of their bodies would do — but *not*
`getNextUri` (nor `getNextDiffUris`, which delegates the ref to it
unchecked): `getNextUri` rewrites the sentinel to "no ref, filter on
Added commits" and always issues at least one git invocation. -/
theorem c3_sentinel_short_circuit_amended :
    (∀ rest : Option NavUri × Nat,
      getPreviousUri (some deletedOrMissingSha) rest = (none, 0)) ∧
    (∀ rest : Option NavUriPair × Nat,
      getPreviousDiffUris (some deletedOrMissingSha) rest = (none, 0)) ∧
    (∀ rest : Option NavUriPair × Nat,
      getPreviousLineDiffUris (some deletedOrMissingSha) rest = (none, 0)) ∧
    (∀ (o : NextUriOracle) (rp fn : String) (skip : Nat),
      getNextUri o rp fn (some deletedOrMissingSha) skip
        = getNextUriBody o rp fn none ["A"] skip ∧
      1 ≤ (getNextUri o rp fn (some deletedOrMissingSha) skip).2) := by
  refine ⟨?_, ?_, ?_, ?_⟩
  · intro rest
    simp [getPreviousUri]
  · intro rest
    simp [getPreviousDiffUris]
  · intro rest
    simp [getPreviousLineDiffUris]
  · intro o rp fn skip
    have hne : deletedOrMissingSha.length ≠ 0 := by decide
    have hns : isUncommittedStaged deletedOrMissingSha = false := by decide
    constructor
    · unfold getNextUri
      simp [hne, hns]
    · unfold getNextUri
      simp only [hne, hns]
      have : ∀ body : Option NavUri × Nat,
          body = getNextUriBody o rp fn none ["A"] skip → 1 ≤ body.2 := by
        intro body hb
        rw [hb]
        unfold getNextUriBody
        cases h1 : o.logFileSimple none ["A"] (skip + 1) with
        | none => simp
        | some r =>
          obtain ⟨nextRef, file, status⟩ := r
          by_cases hD : status = some "D"
          · cases h2 : o.logFileSimpleRenamed nextRef with
            | none => simp [h1, hD, h2]
            | some r2 => obtain ⟨a, b⟩ := r2; simp [h1, hD, h2]
          · simp [h1, hD]
      simp [hne, hns]
      exact this _ rfl

/-- Witness for C10: with an identity path normalization, requesting the
file log of the repository root itself throws the guard error, while an
untracked file's core resolves to the `undefined` sentinel untouched. -/
theorem c10_log_for_file_guard_and_untracked_witness :
    getLogForFileStart ⟨true, 0, false⟩ id (some "/r") "/r"
        ⟨none, none, none, none, false⟩ true ⟨none, 1, 0⟩
      = .thrown ("File name cannot match the repository path; fileName=" ++ "/r") ∧
    getLogForFileCore false none false "log" (.success none) ⟨none, 1, 0⟩
      = (none, ⟨none, 1, 0⟩) := by
  have h := c10_log_for_file_guard_and_untracked ⟨true, 0, false⟩ id (some "/r") "/r"
    ⟨none, none, none, none, false⟩ true ⟨none, 1, 0⟩
  exact ⟨h.1 rfl, h.2.2 none false "log" (.success none)⟩

end GitLens
